import Mathlib

/-!
Verification of the series-index core of a log-aggregation platform: the
symbolizer (label interning with checkpoint/compressed serialization), the
chunk-sample structure used by the index reader to resume chunk decoding near a
query's lower time bound, the postings engine, the symbol table, the index
open/validation path, and the predicate walker of the columnar dataset package.

Pure functions of the source are embedded as Lean functions; byte streams are
modelled as `List Nat` (each element one byte); fallible code returns `Option`
or `Except`.  Where an implementation file is absent from the source tree and
only its tests are available, the definition is modelled from the spec (marked
`Modelled from the spec:` in its doc comment) and constrained by the concrete
expectations of the in-repo tests.
-/

namespace Enc

/-- Fuel-driven worker for `uvarint`; the fuel only bounds the recursion depth
(any fuel at least the value itself is enough) and keeps the definition
structurally recursive, hence computable by the kernel. -/
def uvarintAux : Nat → Nat → List Nat
  | 0, n => [n]
  | fuel + 1, n => if n < 128 then [n] else (n % 128 + 128) :: uvarintAux fuel (n / 128)

/-- Little-endian base-128 varint encoding of a natural number, as Go
binary.PutUvarint writes it: seven payload bits per byte, high bit set on every
byte except the last. -/
def uvarint (n : Nat) : List Nat := uvarintAux n n

/-- Decode a base-128 varint from the front of a byte list, returning the value
and the remaining bytes. -/
def uvarintDec : List Nat → Option (Nat × List Nat)
  | [] => none
  | b :: rest =>
    if b < 128 then some (b, rest)
    else
      match uvarintDec rest with
      | some (m, r) => some (m * 128 + (b - 128), r)
      | none => none

/-- Zigzag mapping of a signed integer to an unsigned one, as Go
binary.PutVarint: non-negative i maps to 2*i, negative i to -2*i-1. -/
def zigzag (i : Int) : Nat := if 0 ≤ i then (2 * i).toNat else (-2 * i - 1).toNat

/-- Inverse of `zigzag`. -/
def unzigzag (n : Nat) : Int :=
  if n % 2 = 0 then ((n / 2 : Nat) : Int) else -((n / 2 : Nat) : Int) - 1

/-- Signed varint encoding (zigzag then base-128), as Go binary.PutVarint. -/
def varint (i : Int) : List Nat := uvarint (zigzag i)

/-- Decode a signed varint from the front of a byte list. -/
def varintDec (b : List Nat) : Option (Int × List Nat) :=
  (uvarintDec b).map fun p => (unzigzag p.1, p.2)

/-- Big-endian 4-byte encoding of a 32-bit value. -/
def be32 (n : Nat) : List Nat := [n / 2 ^ 24 % 256, n / 2 ^ 16 % 256, n / 2 ^ 8 % 256, n % 256]

/-- Decode a big-endian 4-byte value from the front of a byte list. -/
def be32Dec : List Nat → Option (Nat × List Nat)
  | a :: b :: c :: d :: rest => some (a * 2 ^ 24 + b * 2 ^ 16 + c * 2 ^ 8 + d, rest)
  | _ => none

/-- Big-endian 8-byte encoding of a 64-bit value. -/
def be64 (n : Nat) : List Nat :=
  [n / 2 ^ 56 % 256, n / 2 ^ 48 % 256, n / 2 ^ 40 % 256, n / 2 ^ 32 % 256,
   n / 2 ^ 24 % 256, n / 2 ^ 16 % 256, n / 2 ^ 8 % 256, n % 256]

/-- Decode a big-endian 8-byte value from the front of a byte list. -/
def be64Dec : List Nat → Option (Nat × List Nat)
  | a :: b :: c :: d :: e :: f :: g :: h :: rest =>
    some (a * 2 ^ 56 + b * 2 ^ 48 + c * 2 ^ 40 + d * 2 ^ 32 +
          e * 2 ^ 24 + f * 2 ^ 16 + g * 2 ^ 8 + h, rest)
  | _ => none

end Enc

namespace chunkenc

/-- A Go string modelled as its byte sequence. -/
abbrev GoString := List Nat

/-- One label: a (name, value) pair of strings. -/
abbrev Label := GoString × GoString

/-- Whether a byte is an ASCII letter or digit. -/
def isAlphanumByte (b : Nat) : Bool :=
  (48 ≤ b && b ≤ 57) || (65 ≤ b && b ≤ 90) || (97 ≤ b && b ≤ 122)

/-- Modelled from the spec: label-name normalization rewrites any byte that is
not alphanumeric or underscore (95) to an underscore; values are never
normalized. -/
def normalizeByte (b : Nat) : Nat := if isAlphanumByte b || b == 95 then b else 95

/-- Normalize a label name byte-by-byte. -/
def normalizeLabelName (s : GoString) : GoString := s.map normalizeByte

/-- Normalization of one label: the name is normalized, the value untouched. -/
def normalizeLabel (p : Label) : Label := (normalizeLabelName p.1, p.2)

/-- A resolved symbol pair: the ids of a label name and its value. -/
structure symbol where
  Name : Nat
  Value : Nat
deriving DecidableEq

/-- The symbol-pair sequence produced for one label set. -/
abbrev symbols := List symbol

/-- Modelled from the spec: the symbolizer interns label strings and hands out
stable per-string ids within the current build.  `labels` holds the interned
strings in id order, `size` tracks the running total of interned bytes (as the
source does incrementally), and `readOnly` is set when the symbolizer was
loaded from a compressed serialized form (pinned by symbols_test.go:
a checkpoint-loaded symbolizer accepts further Adds, a compression-loaded one
does not). -/
structure symbolizer where
  labels : List GoString
  size : Nat
  readOnly : Bool
deriving DecidableEq

/-- A fresh, writable symbolizer. -/
def newSymbolizer : symbolizer := { labels := [], size := 0, readOnly := false }

/-- The dedicated error returned when mutating a read-only symbolizer. -/
def errSymbolizerReadOnly : String := "symbolizer is read-only"

/-- Intern one string: reuse the id of an equal interned string, otherwise
append it, growing `size` by its byte length. -/
def symbolizer.add (s : symbolizer) (str : GoString) : Nat × symbolizer :=
  match s.labels.findIdx? (fun l => l == str) with
  | some i => (i, s)
  | none => (s.labels.length, { s with labels := s.labels ++ [str], size := s.size + str.length })

/-- Intern a label set in order: for each label the normalized name then the
raw value, returning the symbol pairs. -/
def addLabels : symbolizer → List Label → symbols × symbolizer
  | s, [] => ([], s)
  | s, (n, v) :: rest =>
    let p1 := s.add (normalizeLabelName n)
    let p2 := p1.2.add v
    let p3 := addLabels p2.2 rest
    (⟨p1.1, p2.1⟩ :: p3.1, p3.2)

/-- Add a label set, failing with the dedicated error when the symbolizer is
read-only. -/
def symbolizer.Add (s : symbolizer) (lbls : List Label) : Except String (symbols × symbolizer) :=
  if s.readOnly then .error errSymbolizerReadOnly else .ok (addLabels s lbls)

/-- Resolve one id to its interned string; ids outside the table resolve to the
empty string. -/
def symbolizer.lookupStr (s : symbolizer) (id : Nat) : GoString := s.labels.getD id []

/-- Reconstruct the label set denoted by a symbol-pair sequence. -/
def symbolizer.Lookup (s : symbolizer) (syms : symbols) : List Label :=
  syms.map fun p => (s.lookupStr p.Name, s.lookupStr p.Value)

/-- Go binary.MaxVarintLen32: the maximum width of a 32-bit varint. -/
def MaxVarintLen32 : Nat := 5

/-- The checkpoint stream: a varint count of interned strings followed by each
string varint-length-prefixed, uncompressed. -/
def checkpointBytes (s : symbolizer) : List Nat :=
  Enc.uvarint s.labels.length ++ (s.labels.map fun l => Enc.uvarint l.length ++ l).flatten

/-- Deterministic checkpoint size bound: one maximum-width header varint, one
maximum-width varint per interned string, plus the raw string bytes tracked in
`size`. -/
def symbolizer.CheckpointSize (s : symbolizer) : Nat :=
  MaxVarintLen32 + s.labels.length * MaxVarintLen32 + s.size

/-- Total raw bytes of interned strings. -/
def symbolizer.UncompressedSize (s : symbolizer) : Nat := s.size

/-- Write the checkpoint, returning the stream and the number of bytes
written. -/
def symbolizer.CheckpointTo (s : symbolizer) : List Nat × Nat :=
  (checkpointBytes s, (checkpointBytes s).length)

/-- Read `k` varint-length-prefixed strings from a byte stream. -/
def readLabelStrings : Nat → List Nat → List GoString → Option (List GoString)
  | 0, _, acc => some acc.reverse
  | k + 1, b, acc =>
    match Enc.uvarintDec b with
    | none => none
    | some (len, r) =>
      if len ≤ r.length then readLabelStrings k (r.drop len) (r.take len :: acc) else none

/-- Parse a checkpoint stream back into the interned-string table. -/
def parseCheckpoint (b : List Nat) : Option (List GoString) :=
  match Enc.uvarintDec b with
  | none => none
  | some (n, r) => readLabelStrings n r []

/-- Load a symbolizer from a checkpoint stream.  Pinned by
TestSymbolizerLabelNormalizationAfterCheckpointing: the loaded symbolizer is
writable (readOnly stays false) and further Adds succeed. -/
def symbolizerFromCheckpoint (b : List Nat) : symbolizer :=
  match parseCheckpoint b with
  | some labs => { labels := labs, size := (labs.map List.length).sum, readOnly := false }
  | none => newSymbolizer

/-- A pluggable block compressor/decompressor pair chosen by the caller; the
codec itself is an external collaborator. -/
structure CompressionPool where
  compress : List Nat → List Nat
  decompress : List Nat → Option (List Nat)

/-- Serialize the same logical content as the checkpoint through the caller's
block compressor. -/
def symbolizer.SerializeTo (s : symbolizer) (pool : CompressionPool) : List Nat :=
  pool.compress (checkpointBytes s)

/-- Load a symbolizer from its compressed serialization; the result is
read-only (pinned by TestSymbolizerLabelNormalizationSameNameValue:
loaded.readOnly is required to be true and Add must fail). -/
def symbolizerFromEnc (b : List Nat) (pool : CompressionPool) : Except String symbolizer :=
  match pool.decompress b with
  | none => .error "failed to decompress symbolizer data"
  | some raw =>
    match parseCheckpoint raw with
    | some labs => .ok { labels := labs, size := (labs.map List.length).sum, readOnly := true }
    | none => .error "failed to parse symbolizer data"

/-- Fold a sequence of label-set additions into a symbolizer (the build
phase). -/
def addAll (s : symbolizer) (lls : List (List Label)) : symbolizer :=
  lls.foldl (fun acc L => (addLabels acc L).2) s

end chunkenc

namespace index

/-- A sparse checkpoint over a series chunk list: the running maximum MaxTime
covered up to and including chunk `idx`, the byte offset of that chunk's
encoded metadata, and the MaxTime of the chunk immediately preceding it. -/
structure chunkSample where
  largestMaxt : Int
  idx : Nat
  offset : Nat
  prevChunkMaxt : Int
deriving DecidableEq

/-- The decoded chunk-sample table of one series. -/
structure chunkSamples where
  chunks : List chunkSample
deriving DecidableEq

/-- Modelled from the spec (the index implementation is absent from the tree;
behavior pinned by TestChunkSamples_getChunkSampleForQueryStarting): search
for the first sample whose largestMaxt is at least the query lower bound; if
none exists there are no chunks for the range; otherwise resume from the
sample immediately before it, or from the first sample.  `List.findIdx`
returns the least index satisfying the predicate, the result the source
obtains with sort.Search over the sorted sample table. -/
def chunkSamples.getChunkSampleForQueryStarting (c : chunkSamples) (mint : Int) :
    Option chunkSample :=
  let i := c.chunks.findIdx fun cs => decide (mint ≤ cs.largestMaxt)
  if i < c.chunks.length then c.chunks[i - 1]? else none

/-- The spec-side characterization of the resume sample (amended): none when
the bound exceeds every sampled coverage, otherwise the rightmost sample whose
coverage lies strictly below the bound, or the first sample when none does. -/
def chunkSamples.specResumeSample (c : chunkSamples) (mint : Int) : Option chunkSample :=
  if c.chunks.all fun cs => decide (cs.largestMaxt < mint) then none
  else
    match (c.chunks.filter fun cs => decide (cs.largestMaxt < mint)).getLast? with
    | some s => some s
    | none => c.chunks.head?

/-- Chunk metadata as stored in the series section: time range and checksum. -/
structure ChunkMeta where
  MinTime : Int
  MaxTime : Int
  Checksum : Nat
deriving DecidableEq

/-- Modelled from the spec: chunk metadata is delta-encoded against the
previous chunk's MaxTime — a signed varint of MinTime - prevMaxt, an unsigned
varint of MaxTime - MinTime, then the big-endian checksum. -/
def encodeChunkMeta (prevMaxt : Int) (c : ChunkMeta) : List Nat :=
  Enc.varint (c.MinTime - prevMaxt) ++ Enc.uvarint (c.MaxTime - c.MinTime).toNat ++
    Enc.be32 c.Checksum

/-- Decode one chunk's metadata given the previous chunk's MaxTime as delta
base (Go readChunkMeta). -/
def readChunkMeta (b : List Nat) (prevMaxt : Int) : Option (ChunkMeta × List Nat) :=
  match Enc.varintDec b with
  | none => none
  | some (dmin, b1) =>
    match Enc.uvarintDec b1 with
    | none => none
    | some (dlen, b2) =>
      match Enc.be32Dec b2 with
      | none => none
      | some (cks, b3) => some (⟨prevMaxt + dmin, prevMaxt + dmin + dlen, cks⟩, b3)

/-- Encode a chunk list, threading the delta base (0 before the first chunk). -/
def encodeChunkMetas : Int → List ChunkMeta → List Nat
  | _, [] => []
  | prev, c :: rest => encodeChunkMeta prev c ++ encodeChunkMetas c.MaxTime rest

/-- The MaxTime of the last chunk of a list, or the given base when empty: the
delta base left after encoding the list. -/
def lastMaxtD (p : Int) (xs : List ChunkMeta) : Int :=
  match xs.getLast? with
  | some c => c.MaxTime
  | none => p

/-- One hour in milliseconds: the coverage advance after which a new chunk
sample is started.  The spec leaves the exact threshold as a tuning detail;
this value reproduces every expectation of TestDecoder_ChunkSamples. -/
def chunkSampleIntervalMs : Int := 3600000

/-- Modelled from the spec (behavior pinned by TestDecoder_ChunkSamples): walk
the chunk list left to right tracking the running maximum MaxTime; sample the
first chunk, the last chunk, and any chunk whose running maximum advances at
least chunkSampleIntervalMs past the last sampled coverage.  Each sample
records the running maximum, the chunk index, the byte offset of that chunk's
encoding, and the MaxTime of the chunk immediately before it (the delta base
needed to decode from that offset). -/
def buildChunkSamplesGo : Nat → Nat → Int → Int → Int → List ChunkMeta → List chunkSample
  | _, _, _, _, _, [] => []
  | i, offset, prevMaxt, runMax, lastSampled, c :: rest =>
    let newRun := if i = 0 then c.MaxTime else max runMax c.MaxTime
    let takeSample :=
      i == 0 || rest.isEmpty || decide (chunkSampleIntervalMs ≤ newRun - lastSampled)
    let tail := buildChunkSamplesGo (i + 1) (offset + (encodeChunkMeta prevMaxt c).length)
      c.MaxTime newRun (if takeSample then newRun else lastSampled) rest
    if takeSample then ⟨newRun, i, offset, prevMaxt⟩ :: tail else tail

/-- Build the chunk-sample table of a chunk list, as the reader does on first
decode of a series. -/
def buildChunkSamples (chunks : List ChunkMeta) : chunkSamples :=
  ⟨buildChunkSamplesGo 0 0 0 0 0 chunks⟩

/-- Running maximum MaxTime over the chunks up to and including index i. -/
def runningMaxt (chunks : List ChunkMeta) (i : Nat) : Int :=
  match chunks.take (i + 1) with
  | [] => 0
  | c :: rest => (rest.map ChunkMeta.MaxTime).foldl max c.MaxTime

/-- The MaxTime of the chunk immediately before index i (0 for the first). -/
def prevMaxtAt (chunks : List ChunkMeta) (i : Nat) : Int :=
  match i with
  | 0 => 0
  | j + 1 => (chunks.map ChunkMeta.MaxTime).getD j 0

/-- Modelled from the spec: build-time postings accumulation, a map from one
label to the ascending list of references of the series carrying it. -/
structure MemPostings where
  m : String → String → List Nat

/-- The empty postings map. -/
def MemPostings.empty : MemPostings := ⟨fun _ _ => []⟩

/-- Insert a series reference into the postings list of every label of its
label set (Go MemPostings.Add). -/
def MemPostings.add (p : MemPostings) (ref : Nat) (lset : List (String × String)) :
    MemPostings :=
  ⟨fun n v => if (n, v) ∈ lset then p.m n v ++ [ref] else p.m n v⟩

/-- Accumulate postings over the series of one build, in insertion order. -/
def buildPostings (series : List (Nat × List (String × String))) : MemPostings :=
  series.foldl (fun p s => p.add s.1 s.2) .empty

/-- Merge two ascending duplicate-free reference lists into their ascending
duplicate-free union: the pairwise step of the k-way merge. -/
def mergePostings : List Nat → List Nat → List Nat
  | [], ys => ys
  | x :: xs, [] => x :: xs
  | x :: xs, y :: ys =>
    if x < y then x :: mergePostings xs (y :: ys)
    else if y < x then y :: mergePostings (x :: xs) ys
    else x :: mergePostings xs ys
termination_by l1 l2 => l1.length + l2.length
decreasing_by all_goals (simp only [List.length_cons]; omega)

/-- Reader query: the k-way union of the per-value postings lists of one label
name (Go Postings(name, values...), composed of Merge over ListPostings). -/
def Postings (p : MemPostings) (name : String) (values : List String) : List Nat :=
  (values.map fun v => p.m name v).foldr mergePostings []

/-- Symbol sampling factor: one retained offset per 32 symbols. -/
def symbolFactor : Nat := 32

/-- Modelled from the spec: the symbol table over a validated, checksummed
region, represented by its decoded ascending symbol sequence (byte strings
compared bytewise, as Go compares strings); lookups go through one sampled
offset per symbolFactor symbols plus a local scan. -/
structure Symbols where
  syms : List chunkenc.GoString
deriving DecidableEq

/-- Least index at least j and below num satisfying q, else num: the result
sort.Search computes. -/
def firstIdxFrom (num : Nat) (q : Nat → Bool) : Nat → Nat
  | j => if _h : j < num then (if q j then j else firstIdxFrom num q (j + 1)) else num
termination_by j => num - j
decreasing_by omega

/-- Resolve a symbol index: jump to the sampled offset of its block, then walk
the remainder locally (Go Symbols.Lookup, format version 2). -/
def Symbols.Lookup (s : Symbols) (o : Nat) : Option chunkenc.GoString :=
  if o < s.syms.length then
    (s.syms.drop (symbolFactor * (o / symbolFactor)))[o % symbolFactor]?
  else none

/-- Resolve a symbol string to its index: search the sampled offsets for the
first block starting past it, step back one block, then scan forward to the
first symbol not below it and compare (Go Symbols.ReverseLookup). -/
def Symbols.ReverseLookup (s : Symbols) (sym : chunkenc.GoString) : Option Nat :=
  if s.syms.isEmpty then none
  else
    let n := s.syms.length
    let numSamples := (n + symbolFactor - 1) / symbolFactor
    let i := firstIdxFrom numSamples (fun j => decide (sym < s.syms.getD (symbolFactor * j) [])) 0
    let i2 := if 0 < i then i - 1 else i
    let res := firstIdxFrom n (fun q => decide (sym ≤ s.syms.getD q [])) (symbolFactor * i2)
    if res < n && s.syms.getD res [] == sym then some res else none

/-- Enumerate the symbols in stored (ascending) order. -/
def Symbols.Iter (s : Symbols) : List chunkenc.GoString := s.syms

/-- One step of the bit-reflected CRC-32 feedback (Castagnoli polynomial). -/
def crc32Step (c : Nat) : Nat := if c % 2 = 1 then Nat.xor (c / 2) 0x82F63B78 else c / 2

/-- Fold one byte into the CRC-32C state. -/
def crc32Byte (c b : Nat) : Nat := crc32Step^[8] (Nat.xor c (b % 256))

/-- CRC-32 with the Castagnoli polynomial over a byte list, as
crc32.Checksum(..., castagnoliTable). -/
def crc32c (bs : List Nat) : Nat := Nat.xor (bs.foldl crc32Byte 0xFFFFFFFF) 0xFFFFFFFF

/-- The index-file magic number. -/
def MagicIndex : Nat := 0xBAAAD700

/-- The magic number's bytes. -/
def magicBytes : List Nat := Enc.be32 MagicIndex

/-- Supported format versions. -/
def FormatV1 : Nat := 1

/-- Format version 2. -/
def FormatV2 : Nat := 2

/-- Format version 3. -/
def FormatV3 : Nat := 3

/-- Magic header plus one version byte. -/
def HeaderLen : Nat := 5

/-- TOC byte size: four section offsets, four section checksums, and the TOC
checksum. -/
def tocLen : Nat := 4 * 8 + 4 * 4 + 4

/-- A successfully opened reader: the validated sections. -/
structure Reader where
  symbolsSection : List Nat
  seriesSection : List Nat
  labelIndicesSection : List Nat
  postingsSection : List Nat
deriving DecidableEq

/-- Modelled from the spec: the writer lays out the magic header, the format
version, the four sections, then a trailing TOC of absolute offsets plus
per-section checksums, the TOC checksum, and trailing magic. -/
def writeIndex (symTab series labelIdx postings : List Nat) : List Nat :=
  let o1 := HeaderLen
  let o2 := o1 + symTab.length
  let o3 := o2 + series.length
  let o4 := o3 + labelIdx.length
  let tocBody := Enc.be64 o1 ++ Enc.be64 o2 ++ Enc.be64 o3 ++ Enc.be64 o4 ++
    Enc.be32 (crc32c symTab) ++ Enc.be32 (crc32c series) ++
    Enc.be32 (crc32c labelIdx) ++ Enc.be32 (crc32c postings)
  magicBytes ++ [FormatV3] ++ symTab ++ series ++ labelIdx ++ postings ++
    tocBody ++ Enc.be32 (crc32c tocBody) ++ magicBytes

/-- Parse the TOC body: four section offsets and four section checksums. -/
def parseToc (t : List Nat) : Option (Nat × Nat × Nat × Nat × Nat × Nat × Nat × Nat) :=
  match Enc.be64Dec t with
  | none => none
  | some (o1, t1) =>
    match Enc.be64Dec t1 with
    | none => none
    | some (o2, t2) =>
      match Enc.be64Dec t2 with
      | none => none
      | some (o3, t3) =>
        match Enc.be64Dec t3 with
        | none => none
        | some (o4, t4) =>
          match Enc.be32Dec t4 with
          | none => none
          | some (c1, t5) =>
            match Enc.be32Dec t5 with
            | none => none
            | some (c2, t6) =>
              match Enc.be32Dec t6 with
              | none => none
              | some (c3, t7) =>
                match Enc.be32Dec t7 with
                | none => none
                | some (c4, _) => some (o1, o2, o3, o4, c1, c2, c3, c4)

/-- Modelled from the spec: open a byte slice as an index, failing with a
corruption error on a truncated buffer, a wrong magic header, an unsupported
version, or any checksum or structural mismatch (Go newReader, behind
NewReader, and behind NewFileReader after reading the file). -/
def newReader (b : List Nat) : Except String Reader :=
  if b.length < HeaderLen + tocLen + 4 then .error "invalid index: file too small"
  else if b.take 4 ≠ magicBytes then .error "invalid magic number"
  else if b.getD 4 0 ≠ FormatV1 ∧ b.getD 4 0 ≠ FormatV2 ∧ b.getD 4 0 ≠ FormatV3 then
    .error "unknown index file version"
  else if b.drop (b.length - 4) ≠ magicBytes then .error "invalid trailing magic number"
  else
    let tocBody := (b.drop (b.length - (tocLen + 4))).take (tocLen - 4)
    let tocCrc := (b.drop (b.length - 8)).take 4
    if Enc.be32 (crc32c tocBody) ≠ tocCrc then .error "TOC checksum mismatch"
    else
      match parseToc tocBody with
      | none => .error "invalid TOC"
      | some (o1, o2, o3, o4, c1, c2, c3, c4) =>
        let endOfSections := b.length - (tocLen + 4)
        if o1 = HeaderLen ∧ o1 ≤ o2 ∧ o2 ≤ o3 ∧ o3 ≤ o4 ∧ o4 ≤ endOfSections then
          let s1 := (b.drop o1).take (o2 - o1)
          let s2 := (b.drop o2).take (o3 - o2)
          let s3 := (b.drop o3).take (o4 - o3)
          let s4 := (b.drop o4).take (endOfSections - o4)
          if crc32c s1 ≠ c1 then .error "symbols checksum mismatch"
          else if crc32c s2 ≠ c2 then .error "series checksum mismatch"
          else if crc32c s3 ≠ c3 then .error "label indices checksum mismatch"
          else if crc32c s4 ≠ c4 then .error "postings checksum mismatch"
          else .ok ⟨s1, s2, s3, s4⟩
        else .error "invalid section offsets"

end index

namespace dataset

/-- Value space of a Go variable of the Predicate interface type: nil, one of
the ten predicate structs (columns, values and value sets stay abstract type
parameters; the walker never inspects them), or a non-nil value of some other
dynamic type implementing the interface. -/
inductive GoPredicate (C V S : Type) where
  | nil
  | AndPredicate (left right : GoPredicate C V S)
  | OrPredicate (left right : GoPredicate C V S)
  | NotPredicate (inner : GoPredicate C V S)
  | TruePredicate
  | FalsePredicate
  | EqualPredicate (column : C) (value : V)
  | InPredicate (column : C) (values : S)
  | GreaterThanPredicate (column : C) (value : V)
  | LessThanPredicate (column : C) (value : V)
  | FuncPredicate (column : C) (keep : C → V → Bool)
  | unsupported

/-- Whether a predicate value is built only from the ten enumerated predicate
constructors (nil values and nil children included). -/
def predInEnum {C V S : Type} : GoPredicate C V S → Bool
  | .AndPredicate l r => predInEnum l && predInEnum r
  | .OrPredicate l r => predInEnum l && predInEnum r
  | .NotPredicate inner => predInEnum inner
  | .unsupported => false
  | _ => true

/-- WalkPredicate from predicate.go: call fn on p (unless p is nil); when fn
returns true, recurse into the children and finish with fn(nil); panic — here
`none` — on a non-nil value outside the closed enumeration.  fn threads a
state of type σ, modelling an effectful Go closure; the returned list records
every argument passed to fn, in call order. -/
def WalkPredicate {C V S σ : Type} :
    GoPredicate C V S → (σ → GoPredicate C V S → Bool × σ) → σ →
    Option (σ × List (GoPredicate C V S))
  | .nil, _, s => some (s, [])
  | p@(.AndPredicate l r), fn, s =>
    let c := fn s p
    if c.1 then
      match WalkPredicate l fn c.2 with
      | none => none
      | some (s2, t1) =>
        match WalkPredicate r fn s2 with
        | none => none
        | some (s3, t2) => some ((fn s3 .nil).2, p :: (t1 ++ t2 ++ [.nil]))
    else some (c.2, [p])
  | p@(.OrPredicate l r), fn, s =>
    let c := fn s p
    if c.1 then
      match WalkPredicate l fn c.2 with
      | none => none
      | some (s2, t1) =>
        match WalkPredicate r fn s2 with
        | none => none
        | some (s3, t2) => some ((fn s3 .nil).2, p :: (t1 ++ t2 ++ [.nil]))
    else some (c.2, [p])
  | p@(.NotPredicate inner), fn, s =>
    let c := fn s p
    if c.1 then
      match WalkPredicate inner fn c.2 with
      | none => none
      | some (s2, t1) => some ((fn s2 .nil).2, p :: (t1 ++ [.nil]))
    else some (c.2, [p])
  | p@(.TruePredicate), fn, s =>
    let c := fn s p
    if c.1 then some ((fn c.2 .nil).2, [p, .nil]) else some (c.2, [p])
  | p@(.FalsePredicate), fn, s =>
    let c := fn s p
    if c.1 then some ((fn c.2 .nil).2, [p, .nil]) else some (c.2, [p])
  | p@(.EqualPredicate _ _), fn, s =>
    let c := fn s p
    if c.1 then some ((fn c.2 .nil).2, [p, .nil]) else some (c.2, [p])
  | p@(.InPredicate _ _), fn, s =>
    let c := fn s p
    if c.1 then some ((fn c.2 .nil).2, [p, .nil]) else some (c.2, [p])
  | p@(.GreaterThanPredicate _ _), fn, s =>
    let c := fn s p
    if c.1 then some ((fn c.2 .nil).2, [p, .nil]) else some (c.2, [p])
  | p@(.LessThanPredicate _ _), fn, s =>
    let c := fn s p
    if c.1 then some ((fn c.2 .nil).2, [p, .nil]) else some (c.2, [p])
  | p@(.FuncPredicate _ _), fn, s =>
    let c := fn s p
    if c.1 then some ((fn c.2 .nil).2, [p, .nil]) else some (c.2, [p])
  | .unsupported, fn, s =>
    let c := fn s .unsupported
    if c.1 then none else some (c.2, [.unsupported])

/-- The traversal the spec sentence describes: visit p first; when fn(p)
returns true, recursively visit each non-nil child, then call fn(nil).  Total
by construction; on values outside the enumeration it behaves as a childless
node (the refinement theorem is restricted to enumerated trees). -/
def specWalkVisits {C V S σ : Type} :
    GoPredicate C V S → (σ → GoPredicate C V S → Bool × σ) → σ →
    σ × List (GoPredicate C V S)
  | .nil, _, s => (s, [])
  | p@(.AndPredicate l r), fn, s =>
    let c := fn s p
    if c.1 then
      let w1 := specWalkVisits l fn c.2
      let w2 := specWalkVisits r fn w1.1
      ((fn w2.1 .nil).2, p :: (w1.2 ++ w2.2 ++ [.nil]))
    else (c.2, [p])
  | p@(.OrPredicate l r), fn, s =>
    let c := fn s p
    if c.1 then
      let w1 := specWalkVisits l fn c.2
      let w2 := specWalkVisits r fn w1.1
      ((fn w2.1 .nil).2, p :: (w1.2 ++ w2.2 ++ [.nil]))
    else (c.2, [p])
  | p@(.NotPredicate inner), fn, s =>
    let c := fn s p
    if c.1 then
      let w1 := specWalkVisits inner fn c.2
      ((fn w1.1 .nil).2, p :: (w1.2 ++ [.nil]))
    else (c.2, [p])
  | p, fn, s =>
    let c := fn s p
    if c.1 then ((fn c.2 .nil).2, [p, .nil]) else (c.2, [p])

end dataset

namespace Enc

theorem uvarintAux_fuel : ∀ f1 f2 n : Nat, n ≤ f1 → n ≤ f2 → uvarintAux f1 n = uvarintAux f2 n := by
  intro f1
  induction f1 with
  | zero =>
    intro f2 n h1 _
    have hn : n = 0 := by omega
    subst hn
    cases f2 <;> simp [uvarintAux]
  | succ f ih =>
    intro f2 n h1 h2
    cases f2 with
    | zero =>
      have hn : n = 0 := by omega
      subst hn
      simp [uvarintAux]
    | succ g =>
      simp only [uvarintAux]
      by_cases h : n < 128
      · simp [h]
      · simp only [h, if_false]
        have hlt : n / 128 < n := Nat.div_lt_self (by omega) (by omega)
        rw [ih g (n / 128) (by omega) (by omega)]

theorem uvarint_eq (n : Nat) :
    uvarint n = if n < 128 then [n] else (n % 128 + 128) :: uvarint (n / 128) := by
  unfold uvarint
  by_cases h : n < 128
  · cases n with
    | zero => simp [uvarintAux]
    | succ m => simp [uvarintAux, h]
  · cases n with
    | zero => omega
    | succ m =>
      simp only [uvarintAux, h, if_false]
      have hlt : (m + 1) / 128 < m + 1 := Nat.div_lt_self (by omega) (by omega)
      rw [uvarintAux_fuel m ((m + 1) / 128) ((m + 1) / 128) (by omega) (by omega)]

theorem uvarintDec_append (n : Nat) (rest : List Nat) :
    uvarintDec (uvarint n ++ rest) = some (n, rest) := by
  induction n using Nat.strong_induction_on with
  | _ n ih =>
    rw [uvarint_eq]
    by_cases h : n < 128
    · simp [h, uvarintDec]
    · have hlt : n / 128 < n := Nat.div_lt_self (by omega) (by omega)
      simp only [h, if_false, List.cons_append, uvarintDec]
      have hge : ¬ n % 128 + 128 < 128 := by omega
      simp only [hge, if_false, ih (n / 128) hlt]
      have heq : n / 128 * 128 + (n % 128 + 128 - 128) = n := by omega
      rw [heq]

theorem unzigzag_zigzag (i : Int) : unzigzag (zigzag i) = i := by
  unfold zigzag unzigzag
  split <;> split <;> omega

theorem varintDec_append (i : Int) (rest : List Nat) :
    varintDec (varint i ++ rest) = some (i, rest) := by
  unfold varint varintDec
  rw [uvarintDec_append]
  simp [unzigzag_zigzag]

theorem be32Dec_append (n : Nat) (h : n < 2 ^ 32) (rest : List Nat) :
    be32Dec (be32 n ++ rest) = some (n, rest) := by
  simp only [be32, be32Dec, List.cons_append, List.nil_append]
  congr 2
  omega

theorem uvarint_length_le (k n : Nat) (hk : 1 ≤ k) (h : n < 128 ^ k) :
    (uvarint n).length ≤ k := by
  induction k generalizing n with
  | zero => omega
  | succ k ih =>
    rw [uvarint_eq]
    by_cases hs : n < 128
    · simp [hs]
    · have hk' : 1 ≤ k := by
        by_contra hc
        have hk0 : k = 0 := by omega
        subst hk0
        simp at h
        omega
      simp only [hs, if_false, List.length_cons]
      have hdiv : n / 128 < 128 ^ k := by
        have h128 : (128 : Nat) ^ (k + 1) = 128 * 128 ^ k := by ring
        rw [h128] at h
        exact Nat.div_lt_of_lt_mul h
      have := ih (n / 128) hk' hdiv
      omega

end Enc

namespace chunkenc

theorem findIdxBEq_some {l : List GoString} {str : GoString} :
    ∀ {i j : Nat}, l.findIdx? (fun x => x == str) i = some j → i ≤ j ∧ l[j - i]? = some str := by
  induction l with
  | nil => intro i j h; simp [List.findIdx?_nil] at h
  | cons x xs ih =>
    intro i j h
    rw [List.findIdx?_cons] at h
    by_cases hx : (x == str) = true
    · have hxs : x = str := by simpa using hx
      simp only [hx, if_true, Option.some.injEq] at h
      subst h
      subst hxs
      simp
    · simp only [hx, if_false, Bool.false_eq_true] at h
      obtain ⟨h1, h2⟩ := ih h
      refine ⟨by omega, ?_⟩
      have hji : j - i = (j - (i + 1)) + 1 := by omega
      rw [hji]
      simpa using h2

theorem add_getElem (s : symbolizer) (str : GoString) :
    (s.add str).2.labels[(s.add str).1]? = some str := by
  cases hf : s.labels.findIdx? (fun l => l == str) with
  | some i =>
    obtain ⟨_, h2⟩ := findIdxBEq_some hf
    simp only [symbolizer.add, hf]
    simpa using h2
  | none => simp [symbolizer.add, hf]

theorem add_extend (s : symbolizer) (str : GoString) :
    ∃ ext, (s.add str).2.labels = s.labels ++ ext := by
  cases hf : s.labels.findIdx? (fun l => l == str) with
  | some i => exact ⟨[], by simp [symbolizer.add, hf]⟩
  | none => exact ⟨[str], by simp [symbolizer.add, hf]⟩

theorem getElem_extend {l1 ext : List GoString} {i : Nat} {str : GoString}
    (h : l1[i]? = some str) : (l1 ++ ext)[i]? = some str := by
  have hi : i < l1.length := by
    by_contra hc
    rw [List.getElem?_eq_none (by omega)] at h
    exact Option.noConfusion h
  rw [List.getElem?_append_left hi]
  exact h

theorem addLabels_spec :
    ∀ (L : List Label) (s : symbolizer),
      (∃ ext, (addLabels s L).2.labels = s.labels ++ ext) ∧
      (∀ t : symbolizer, (∃ ext2, t.labels = (addLabels s L).2.labels ++ ext2) →
        t.Lookup (addLabels s L).1 = L.map normalizeLabel) := by
  intro L
  induction L with
  | nil =>
    intro s
    exact ⟨⟨[], by simp [addLabels]⟩, fun t _ => by simp [addLabels, symbolizer.Lookup]⟩
  | cons hd rest ih =>
    intro s
    obtain ⟨n, v⟩ := hd
    have hstep : addLabels s ((n, v) :: rest) =
        (⟨(s.add (normalizeLabelName n)).1, ((s.add (normalizeLabelName n)).2.add v).1⟩ ::
            (addLabels ((s.add (normalizeLabelName n)).2.add v).2 rest).1,
          (addLabels ((s.add (normalizeLabelName n)).2.add v).2 rest).2) := rfl
    obtain ⟨e1, he1⟩ := add_extend s (normalizeLabelName n)
    obtain ⟨e2, he2⟩ := add_extend (s.add (normalizeLabelName n)).2 v
    obtain ⟨⟨e3, he3⟩, hlook⟩ := ih ((s.add (normalizeLabelName n)).2.add v).2
    constructor
    · refine ⟨e1 ++ e2 ++ e3, ?_⟩
      rw [hstep]
      simp only [he3, he2, he1]
      simp [List.append_assoc]
    · intro t ⟨ext2, hext2⟩
      rw [hstep]
      simp only [symbolizer.Lookup, List.map_cons]
      have htail : t.Lookup (addLabels ((s.add (normalizeLabelName n)).2.add v).2 rest).1 =
          rest.map normalizeLabel := hlook t ⟨ext2, by rw [hext2, hstep]⟩
      simp only [symbolizer.Lookup] at htail
      rw [htail]
      have hn : t.labels[(s.add (normalizeLabelName n)).1]? = some (normalizeLabelName n) := by
        have h0 := add_getElem s (normalizeLabelName n)
        have h1 : ((s.add (normalizeLabelName n)).2.add v).2.labels[(s.add
            (normalizeLabelName n)).1]? = some (normalizeLabelName n) := by
          rw [he2]; exact getElem_extend h0
        have h2 : (addLabels ((s.add (normalizeLabelName n)).2.add v).2
            rest).2.labels[(s.add (normalizeLabelName n)).1]? = some (normalizeLabelName n) := by
          rw [he3]; exact getElem_extend h1
        rw [hext2, hstep]
        exact getElem_extend h2
      have hv : t.labels[((s.add (normalizeLabelName n)).2.add v).1]? = some v := by
        have h0 := add_getElem (s.add (normalizeLabelName n)).2 v
        have h2 : (addLabels ((s.add (normalizeLabelName n)).2.add v).2
            rest).2.labels[((s.add (normalizeLabelName n)).2.add v).1]? = some v := by
          rw [he3]; exact getElem_extend h0
        rw [hext2, hstep]
        exact getElem_extend h2
      simp only [symbolizer.lookupStr, List.getD_eq_getElem?_getD, hn, hv, Option.getD_some,
        normalizeLabel]

theorem readLabelStrings_append (labs : List GoString) :
    ∀ acc : List GoString,
      readLabelStrings labs.length ((labs.map fun l => Enc.uvarint l.length ++ l).flatten) acc =
        some (acc.reverse ++ labs) := by
  induction labs with
  | nil => intro acc; simp [readLabelStrings]
  | cons l ls ih =>
    intro acc
    simp only [List.map_cons, List.flatten_cons, List.length_cons]
    rw [readLabelStrings, List.append_assoc, Enc.uvarintDec_append]
    have hle : l.length ≤ (l ++ (ls.map fun x => Enc.uvarint x.length ++ x).flatten).length := by
      simp
    simp only [hle, if_true]
    rw [List.take_left, List.drop_left, ih (l :: acc)]
    simp

theorem parseCheckpoint_checkpointBytes (s : symbolizer) :
    parseCheckpoint (checkpointBytes s) = some s.labels := by
  unfold parseCheckpoint checkpointBytes
  rw [Enc.uvarintDec_append]
  simpa using readLabelStrings_append s.labels []

theorem normalizeByte_idem (b : Nat) : normalizeByte (normalizeByte b) = normalizeByte b := by
  by_cases h : (isAlphanumByte b || b == 95) = true
  · simp [normalizeByte, h]
  · have : normalizeByte b = 95 := by simp [normalizeByte, h]
    rw [this]
    decide

theorem normalizeLabelName_idem (s : GoString) :
    normalizeLabelName (normalizeLabelName s) = normalizeLabelName s := by
  unfold normalizeLabelName
  rw [List.map_map]
  apply List.map_congr_left
  intro b _
  exact normalizeByte_idem b

end chunkenc

namespace chunkenc

theorem lookup_eq_of_labels_eq {s t : symbolizer} (h : s.labels = t.labels) (syms : symbols) :
    s.Lookup syms = t.Lookup syms := by
  unfold symbolizer.Lookup symbolizer.lookupStr
  rw [h]

theorem add_size (s : symbolizer) (str : GoString)
    (h : s.size = (s.labels.map List.length).sum) :
    (s.add str).2.size = ((s.add str).2.labels.map List.length).sum := by
  cases hf : s.labels.findIdx? (fun l => l == str) with
  | some i => simpa [symbolizer.add, hf] using h
  | none => simp [symbolizer.add, hf, h]

theorem addLabels_size : ∀ (L : List Label) (s : symbolizer),
    s.size = (s.labels.map List.length).sum →
    (addLabels s L).2.size = ((addLabels s L).2.labels.map List.length).sum := by
  intro L
  induction L with
  | nil => intro s h; simpa [addLabels] using h
  | cons hd rest ih =>
    intro s h
    obtain ⟨n, v⟩ := hd
    exact ih _ (add_size _ _ (add_size _ _ h))

theorem addAll_size (lls : List (List Label)) :
    (addAll newSymbolizer lls).size = ((addAll newSymbolizer lls).labels.map List.length).sum := by
  suffices h : ∀ s : symbolizer, s.size = (s.labels.map List.length).sum →
      (addAll s lls).size = ((addAll s lls).labels.map List.length).sum from
    h newSymbolizer (by simp [newSymbolizer])
  induction lls with
  | nil => intro s h; simpa [addAll] using h
  | cons L rest ih =>
    intro s h
    have hstep : addAll s (L :: rest) = addAll (addLabels s L).2 rest := rfl
    rw [hstep]
    exact ih _ (addLabels_size L s h)

theorem sum_map_add_const (labs : List GoString) :
    (labs.map fun l => MaxVarintLen32 + l.length).sum =
      labs.length * MaxVarintLen32 + (labs.map List.length).sum := by
  induction labs with
  | nil => simp
  | cons l ls ih =>
    simp only [List.map_cons, List.sum_cons, List.length_cons, ih]
    ring

theorem checkpointBytes_length_le (s : symbolizer)
    (hc : s.labels.length < 2 ^ 32) (hl : ∀ l ∈ s.labels, l.length < 2 ^ 32)
    (hsize : s.size = (s.labels.map List.length).sum) :
    (checkpointBytes s).length ≤ s.CheckpointSize := by
  have hb : (2 : Nat) ^ 32 ≤ 128 ^ 5 := by norm_num
  have h1 : (Enc.uvarint s.labels.length).length ≤ MaxVarintLen32 :=
    Enc.uvarint_length_le 5 _ (by norm_num) (lt_of_lt_of_le hc hb)
  have h2 : ((s.labels.map fun l => Enc.uvarint l.length ++ l).map List.length).sum ≤
      (s.labels.map fun l => MaxVarintLen32 + l.length).sum := by
    rw [List.map_map]
    apply List.sum_le_sum
    intro l hlmem
    simp only [Function.comp_apply, List.length_append]
    have := Enc.uvarint_length_le 5 l.length (by norm_num) (lt_of_lt_of_le (hl l hlmem) hb)
    unfold MaxVarintLen32
    omega
  rw [sum_map_add_const] at h2
  unfold checkpointBytes symbolizer.CheckpointSize
  rw [List.length_append, List.length_flatten, hsize]
  omega

/-- C2: adding any label set to any writable symbolizer yields symbol pairs
that Lookup maps back to the normalized label set (names normalized, values
untouched) — on the post-Add symbolizer itself, on one loaded from its
checkpoint bytes, and on one loaded from its compressed serialization through
any codec pair that round-trips — and every name in the reconstruction is a
normalization fixed point, so an unnormalized name never appears as a name. -/
theorem symbolizer_roundtrip (s0 : symbolizer) (L : List Label) (h : s0.readOnly = false) :
    s0.Add L = .ok (addLabels s0 L) ∧
    (addLabels s0 L).2.Lookup (addLabels s0 L).1 = L.map normalizeLabel ∧
    (symbolizerFromCheckpoint (checkpointBytes (addLabels s0 L).2)).Lookup (addLabels s0 L).1 =
      L.map normalizeLabel ∧
    (∀ pool : CompressionPool, (∀ x, pool.decompress (pool.compress x) = some x) →
      ∃ loaded, symbolizerFromEnc ((addLabels s0 L).2.SerializeTo pool) pool = .ok loaded ∧
        loaded.Lookup (addLabels s0 L).1 = L.map normalizeLabel) ∧
    (∀ p ∈ (addLabels s0 L).2.Lookup (addLabels s0 L).1, normalizeLabelName p.1 = p.1) := by
  obtain ⟨hext, hlook⟩ := addLabels_spec L s0
  have hself : (addLabels s0 L).2.Lookup (addLabels s0 L).1 = L.map normalizeLabel :=
    hlook _ ⟨[], by simp⟩
  have hcp : symbolizerFromCheckpoint (checkpointBytes (addLabels s0 L).2) =
      { labels := (addLabels s0 L).2.labels,
        size := ((addLabels s0 L).2.labels.map List.length).sum, readOnly := false } := by
    unfold symbolizerFromCheckpoint
    rw [parseCheckpoint_checkpointBytes]
  refine ⟨by simp [symbolizer.Add, h], hself, ?_, ?_, ?_⟩
  · rw [hcp]
    exact hlook _ ⟨[], by simp⟩
  · intro pool hpool
    have henc : symbolizerFromEnc ((addLabels s0 L).2.SerializeTo pool) pool =
        .ok { labels := (addLabels s0 L).2.labels,
              size := ((addLabels s0 L).2.labels.map List.length).sum, readOnly := true } := by
      unfold symbolizerFromEnc symbolizer.SerializeTo
      rw [hpool]
      simp only [parseCheckpoint_checkpointBytes]
    exact ⟨_, henc, hlook _ ⟨[], by simp⟩⟩
  · intro p hp
    rw [hself] at hp
    obtain ⟨q, hq, rfl⟩ := List.mem_map.1 hp
    exact normalizeLabelName_idem q.1

/-- C2 witness: the concrete scenario of the spec — label foo-bar=value1 added
to a fresh symbolizer reconstructs as the normalized set. -/
theorem symbolizer_roundtrip_witness :
    newSymbolizer.readOnly = false ∧
    (addLabels newSymbolizer [([102, 111, 111, 45, 98, 97, 114], [118, 97, 108, 117, 101, 49])]).2.Lookup
        (addLabels newSymbolizer
          [([102, 111, 111, 45, 98, 97, 114], [118, 97, 108, 117, 101, 49])]).1 =
      [([102, 111, 111, 45, 98, 97, 114], [118, 97, 108, 117, 101, 49])].map normalizeLabel :=
  ⟨rfl, (symbolizer_roundtrip newSymbolizer
    [([102, 111, 111, 45, 98, 97, 114], [118, 97, 108, 117, 101, 49])] rfl).2.1⟩

/-- C4 (amended): only loading from the compressed serialized form produces a
read-only symbolizer — Add on it fails with the dedicated read-only error and,
the embedding being functional, yields no modified state — while a symbolizer
loaded via symbolizerFromCheckpoint remains writable and Add succeeds. -/
theorem symbolizer_readOnly_enforcement :
    (∀ (b : List Nat) (pool : CompressionPool) (s2 : symbolizer),
        symbolizerFromEnc b pool = .ok s2 →
          s2.readOnly = true ∧ ∀ L, s2.Add L = .error errSymbolizerReadOnly) ∧
    (∀ b : List Nat, (symbolizerFromCheckpoint b).readOnly = false ∧
        ∀ L, (symbolizerFromCheckpoint b).Add L =
          .ok (addLabels (symbolizerFromCheckpoint b) L)) := by
  constructor
  · intro b pool s2 hok
    unfold symbolizerFromEnc at hok
    cases hd : pool.decompress b with
    | none =>
      simp only [hd] at hok
      exact Except.noConfusion hok
    | some raw =>
      simp only [hd] at hok
      cases hp : parseCheckpoint raw with
      | none =>
        simp only [hp] at hok
        exact Except.noConfusion hok
      | some labs =>
        simp only [hp, Except.ok.injEq] at hok
        subst hok
        exact ⟨rfl, fun L => by simp [symbolizer.Add]⟩
  · intro b
    have hro : (symbolizerFromCheckpoint b).readOnly = false := by
      unfold symbolizerFromCheckpoint
      cases parseCheckpoint b <;> simp [newSymbolizer]
    exact ⟨hro, fun L => by simp [symbolizer.Add, hro]⟩

/-- C4 witness: a concrete enc-loaded symbolizer rejects Add with the
read-only error, and a concrete checkpoint-loaded one is writable. -/
theorem symbolizer_readOnly_enforcement_witness :
    (symbolizerFromCheckpoint []).readOnly = false ∧
    ({ labels := [[102]], size := 1, readOnly := true } : symbolizer).Add [] =
      .error errSymbolizerReadOnly :=
  ⟨(symbolizer_readOnly_enforcement.2 []).1,
    (symbolizer_readOnly_enforcement.1
      (checkpointBytes { labels := [[102]], size := 1, readOnly := false })
      ⟨fun x => x, fun x => some x⟩
      { labels := [[102]], size := 1, readOnly := true } rfl).2 []⟩

/-- C4 counterexample: Add on a symbolizer loaded via symbolizerFromCheckpoint
succeeds — it does not fail with the read-only error — refuting the claim that
any Add on a Symbolizer loaded from either serialized form fails.  This is the
scenario of TestSymbolizerLabelNormalizationAfterCheckpointing (labels
foo-bar=value1, fizz-buzz=value2 checkpointed and reloaded, then new labels
added with require.NoError). -/
theorem symbolizerFromCheckpoint_add_succeeds :
    ((symbolizerFromCheckpoint (checkpointBytes (addLabels newSymbolizer
        [([102, 111, 111, 45, 98, 97, 114], [118, 97, 108, 117, 101, 49]),
         ([102, 105, 122, 122, 45, 98, 117, 122, 122], [118, 97, 108, 117, 101, 50])]).2)).Add
      [([102, 111, 111, 45, 98, 97, 114],
        [110, 101, 119, 45, 118, 97, 108, 117, 101, 49])]).isOk = true := by
  decide

/-- C8: for a symbolizer reached by any sequence of Adds from a fresh one,
CheckpointSize is exactly one maximum-width header varint plus one
maximum-width varint per interned string plus the total interned byte length;
CheckpointTo writes at most CheckpointSize bytes; with no labels the size is
exactly one maximum-width varint. -/
theorem symbolizer_checkpoint_size (lls : List (List Label))
    (hc : (addAll newSymbolizer lls).labels.length < 2 ^ 32)
    (hl : ∀ l ∈ (addAll newSymbolizer lls).labels, l.length < 2 ^ 32) :
    (addAll newSymbolizer lls).CheckpointSize =
      MaxVarintLen32 + (addAll newSymbolizer lls).labels.length * MaxVarintLen32 +
        ((addAll newSymbolizer lls).labels.map List.length).sum ∧
    ((addAll newSymbolizer lls).CheckpointTo).2 ≤ (addAll newSymbolizer lls).CheckpointSize ∧
    (lls = [] → (addAll newSymbolizer lls).CheckpointSize = MaxVarintLen32) := by
  have hs := addAll_size lls
  refine ⟨?_, ?_, ?_⟩
  · unfold symbolizer.CheckpointSize
    rw [hs]
  · exact checkpointBytes_length_le _ hc hl hs
  · intro h
    subst h
    rfl

/-- C8 witness: the bound instantiated on a one-label build. -/
theorem symbolizer_checkpoint_size_witness :
    (addAll newSymbolizer [[([102, 111, 111], [98, 97, 114])]]).labels.length < 2 ^ 32 ∧
    ((addAll newSymbolizer [[([102, 111, 111], [98, 97, 114])]]).CheckpointTo).2 ≤
      (addAll newSymbolizer [[([102, 111, 111], [98, 97, 114])]]).CheckpointSize :=
  ⟨by decide, (symbolizer_checkpoint_size [[([102, 111, 111], [98, 97, 114])]]
    (by decide) (by decide)).2.1⟩

/-- C10: on a fresh symbolizer with nothing added, Lookup of the symbol pair
(0, 0) neither fails nor panics: it returns exactly one label whose name and
value are both the empty string. -/
theorem lookup_empty_symbolizer : newSymbolizer.Lookup [⟨0, 0⟩] = [([], [])] := rfl

end chunkenc

namespace index

theorem findIdx_eq_length_takeWhile {α : Type} (p : α → Bool) (l : List α) :
    l.findIdx p = (l.takeWhile fun a => !p a).length := by
  induction l with
  | nil => simp
  | cons a t ih =>
    by_cases h : p a
    · simp [List.findIdx_cons, h, List.takeWhile_cons]
    · simp [List.findIdx_cons, h, List.takeWhile_cons, ih]

theorem chain'_pairwise_le {l : List chunkSample}
    (h : List.Chain' (fun a b => a.largestMaxt ≤ b.largestMaxt) l) :
    List.Pairwise (fun a b => a.largestMaxt ≤ b.largestMaxt) l := by
  haveI : IsTrans chunkSample (fun a b => a.largestMaxt ≤ b.largestMaxt) :=
    ⟨fun _ _ _ h1 h2 => le_trans h1 h2⟩
  exact List.chain'_iff_pairwise.1 h

theorem filter_eq_takeWhile_below (mint : Int) :
    ∀ l : List chunkSample,
      List.Pairwise (fun a b => a.largestMaxt ≤ b.largestMaxt) l →
      l.filter (fun cs => decide (cs.largestMaxt < mint)) =
        l.takeWhile (fun cs => decide (cs.largestMaxt < mint)) := by
  intro l
  induction l with
  | nil => simp
  | cons a t ih =>
    intro hp
    rw [List.pairwise_cons] at hp
    obtain ⟨ha, ht⟩ := hp
    by_cases h : a.largestMaxt < mint
    · simp [List.filter_cons, List.takeWhile_cons, h, ih ht]
    · have hd : (decide (a.largestMaxt < mint)) = false := decide_eq_false h
      rw [List.filter_cons, List.takeWhile_cons, hd]
      simp only [Bool.false_eq_true, if_false]
      rw [List.filter_eq_nil_iff]
      intro b hb
      have hab := ha b hb
      simp only [decide_eq_true_eq]
      omega

theorem below_pred_ext (mint : Int) :
    (fun cs : chunkSample => !(decide (mint ≤ cs.largestMaxt))) =
      fun cs : chunkSample => decide (cs.largestMaxt < mint) := by
  funext cs
  rcases le_or_lt mint cs.largestMaxt with h | h
  · rw [decide_eq_true h, decide_eq_false (by omega)]
    rfl
  · rw [decide_eq_false (by omega), decide_eq_true h]
    rfl

/-- C1 (amended): over a sample table with non-decreasing largestMaxt, the
query-start lookup returns no sample exactly when mint is greater than every
sample's largestMaxt; otherwise it returns the sample immediately preceding
the first sample whose largestMaxt is at least mint — the rightmost sample
whose coverage lies strictly below mint, or the first sample when none does —
so that no chunk overlapping the queried range is skipped. -/
theorem getChunkSampleForQueryStarting_spec (c : chunkSamples) (mint : Int)
    (hs : List.Chain' (fun a b : chunkSample => a.largestMaxt ≤ b.largestMaxt) c.chunks) :
    c.getChunkSampleForQueryStarting mint = c.specResumeSample mint ∧
    (c.getChunkSampleForQueryStarting mint = none ↔
      ∀ cs ∈ c.chunks, cs.largestMaxt < mint) := by
  have hpw := chain'_pairwise_le hs
  have hk : c.chunks.findIdx (fun cs => decide (mint ≤ cs.largestMaxt)) =
      (c.chunks.takeWhile fun cs => decide (cs.largestMaxt < mint)).length := by
    rw [findIdx_eq_length_takeWhile, below_pred_ext]
  have hfil : c.chunks.filter (fun cs => decide (cs.largestMaxt < mint)) =
      c.chunks.takeWhile (fun cs => decide (cs.largestMaxt < mint)) :=
    filter_eq_takeWhile_below mint c.chunks hpw
  have htwpre : c.chunks.takeWhile (fun cs => decide (cs.largestMaxt < mint)) =
      c.chunks.take (c.chunks.takeWhile (fun cs => decide (cs.largestMaxt < mint))).length :=
    List.prefix_iff_eq_take.1 (List.takeWhile_prefix _)
  have hlen : (c.chunks.takeWhile (fun cs => decide (cs.largestMaxt < mint))).length ≤
      c.chunks.length :=
    (List.takeWhile_prefix _).length_le
  set tw := c.chunks.takeWhile (fun cs => decide (cs.largestMaxt < mint)) with htw
  by_cases hcase : tw.length < c.chunks.length
  · -- a sample at index tw.length fails the strictly-below test
    have hfound : decide (mint ≤ (c.chunks[tw.length]).largestMaxt) = true := by
      have := @List.findIdx_getElem _ (fun cs => decide (mint ≤ cs.largestMaxt)) c.chunks
        (by rw [hk]; exact hcase)
      simpa [hk] using this
    have hge : mint ≤ (c.chunks[tw.length]).largestMaxt := by
      simpa using hfound
    have hmem : (c.chunks[tw.length]) ∈ c.chunks := List.getElem_mem _
    have hallfalse : (c.chunks.all fun cs => decide (cs.largestMaxt < mint)) = false := by
      rcases hall : c.chunks.all fun cs => decide (cs.largestMaxt < mint) with _ | _
      · rfl
      · exfalso
        have := (List.all_eq_true.1 hall) _ hmem
        simp at this
        omega
    have hLHS : c.getChunkSampleForQueryStarting mint = c.chunks[tw.length - 1]? := by
      simp only [chunkSamples.getChunkSampleForQueryStarting]
      rw [hk, if_pos hcase]
    have hRHS : c.specResumeSample mint = c.chunks[tw.length - 1]? := by
      simp only [chunkSamples.specResumeSample]
      rw [hallfalse]
      simp only [Bool.false_eq_true, if_false]
      rw [hfil]
      by_cases h0 : tw.length = 0
      · have htwnil : tw = [] := List.length_eq_zero.1 h0
        rw [htwnil]
        simp [List.head?_eq_getElem?]
      · have hlt : tw.length - 1 < tw.length := by omega
        have hgl : tw.getLast? = c.chunks[tw.length - 1]? := by
          rw [List.getLast?_eq_getElem?, htwpre]
          rw [List.getElem?_take]
          simp only [List.length_take]
          rw [if_pos (by omega)]
        have hlt1 : tw.length - 1 < c.chunks.length := by omega
        obtain ⟨x, hx⟩ : ∃ x, c.chunks[tw.length - 1]? = some x :=
          ⟨c.chunks[tw.length - 1], List.getElem?_eq_getElem hlt1⟩
        rw [hgl, hx]
    have hlt2 : tw.length - 1 < c.chunks.length := by omega
    have hsome : ∃ x, c.chunks[tw.length - 1]? = some x :=
      ⟨c.chunks[tw.length - 1], List.getElem?_eq_getElem hlt2⟩
    obtain ⟨x, hx⟩ := hsome
    refine ⟨hLHS.trans hRHS.symm, ?_⟩
    rw [hLHS, hx]
    constructor
    · intro h
      exact Option.noConfusion h
    · intro hall
      exfalso
      have := hall _ hmem
      omega
  · -- every sample lies strictly below mint
    have hkeq : tw.length = c.chunks.length := by omega
    have htweq : tw = c.chunks := by
      rw [htwpre, hkeq, List.take_length]
    have hall : ∀ cs ∈ c.chunks, cs.largestMaxt < mint := by
      intro cs hcs
      have : cs ∈ tw := htweq ▸ hcs
      have := List.mem_takeWhile_imp this
      simpa using this
    have halltrue : (c.chunks.all fun cs => decide (cs.largestMaxt < mint)) = true :=
      List.all_eq_true.2 fun cs hcs => decide_eq_true (hall cs hcs)
    have hLHS : c.getChunkSampleForQueryStarting mint = none := by
      simp only [chunkSamples.getChunkSampleForQueryStarting]
      rw [hk, if_neg hcase]
    have hRHS : c.specResumeSample mint = none := by
      simp only [chunkSamples.specResumeSample]
      rw [halltrue]
      simp
    exact ⟨hLHS.trans hRHS.symm, by rw [hLHS]; exact ⟨fun _ => hall, fun _ => rfl⟩⟩

/-- C1 witness: the lookup agrees with the spec-side characterization on the
"intermediate chunk sample" table of the repository test, with mint = 250. -/
theorem getChunkSampleForQueryStarting_spec_witness :
    List.Chain' (fun a b : chunkSample => a.largestMaxt ≤ b.largestMaxt)
      ([⟨100, 0, 0, 0⟩, ⟨200, 5, 5, 50⟩, ⟨350, 7, 7, 150⟩, ⟨500, 9, 9, 250⟩] :
        List chunkSample) ∧
    chunkSamples.getChunkSampleForQueryStarting
        ⟨[⟨100, 0, 0, 0⟩, ⟨200, 5, 5, 50⟩, ⟨350, 7, 7, 150⟩, ⟨500, 9, 9, 250⟩]⟩ 250 =
      chunkSamples.specResumeSample
        ⟨[⟨100, 0, 0, 0⟩, ⟨200, 5, 5, 50⟩, ⟨350, 7, 7, 150⟩, ⟨500, 9, 9, 250⟩]⟩ 250 :=
  ⟨by norm_num [List.chain'_cons], (getChunkSampleForQueryStarting_spec
    ⟨[⟨100, 0, 0, 0⟩, ⟨200, 5, 5, 50⟩, ⟨350, 7, 7, 150⟩, ⟨500, 9, 9, 250⟩]⟩ 250
    (by norm_num [List.chain'_cons])).1⟩

/-- C1 counterexample: on the "intermediate chunk sample" table of
TestChunkSamples_getChunkSampleForQueryStarting with mint = 250, the lookup
returns the sample (200, 5, 5, 50) — exactly what the repository test expects
— whose largestMaxt 200 is below mint, so it is not a sample with
prevChunkMaxt < mint ≤ largestMaxt; in particular it differs from
(350, 7, 7, 150), the rightmost sample satisfying that bracketing. -/
theorem getChunkSampleForQueryStarting_not_bracketing :
    chunkSamples.getChunkSampleForQueryStarting
        ⟨[⟨100, 0, 0, 0⟩, ⟨200, 5, 5, 50⟩, ⟨350, 7, 7, 150⟩, ⟨500, 9, 9, 250⟩]⟩ 250 =
      some ⟨200, 5, 5, 50⟩ ∧
    ¬ ((50 : Int) < 250 ∧ (250 : Int) ≤ 200) ∧
    chunkSamples.getChunkSampleForQueryStarting
        ⟨[⟨100, 0, 0, 0⟩, ⟨200, 5, 5, 50⟩, ⟨350, 7, 7, 150⟩, ⟨500, 9, 9, 250⟩]⟩ 250 ≠
      some ⟨350, 7, 7, 150⟩ := by
  refine ⟨by decide, by decide, by decide⟩

end index

namespace index

theorem readChunkMeta_encodeChunkMeta (p : Int) (c : ChunkMeta)
    (h1 : c.MinTime ≤ c.MaxTime) (h2 : c.Checksum < 2 ^ 32) (rest : List Nat) :
    readChunkMeta (encodeChunkMeta p c ++ rest) p = some (c, rest) := by
  obtain ⟨mn, mx, ck⟩ := c
  simp only at h1 h2
  unfold readChunkMeta encodeChunkMeta
  simp only [List.append_assoc]
  rw [Enc.varintDec_append]
  simp only
  rw [Enc.uvarintDec_append]
  simp only
  rw [Enc.be32Dec_append _ h2]
  simp only [Option.some.injEq, Prod.mk.injEq, ChunkMeta.mk.injEq]
  refine ⟨⟨by omega, by omega, trivial⟩, trivial⟩

theorem lastMaxtD_cons (p : Int) (c : ChunkMeta) (t : List ChunkMeta) :
    lastMaxtD p (c :: t) = lastMaxtD c.MaxTime t := by
  cases t with
  | nil => simp [lastMaxtD]
  | cons d t' =>
    unfold lastMaxtD
    rw [List.getLast?_cons_cons]
    cases hgl : (d :: t').getLast? with
    | none =>
      have hsome : (d :: t').getLast?.isSome := by
        rw [List.getLast?_isSome]
        simp
      rw [hgl] at hsome
      simp at hsome
    | some x => simp only [hgl]

theorem encodeChunkMetas_append (xs : List ChunkMeta) :
    ∀ (p : Int) (ys : List ChunkMeta),
      encodeChunkMetas p (xs ++ ys) =
        encodeChunkMetas p xs ++ encodeChunkMetas (lastMaxtD p xs) ys := by
  induction xs with
  | nil => intro p ys; simp [encodeChunkMetas, lastMaxtD]
  | cons c t ih =>
    intro p ys
    simp only [List.cons_append, encodeChunkMetas, List.append_eq, ih c.MaxTime ys,
      List.append_assoc, lastMaxtD_cons]

theorem lastMaxtD_take (full : List ChunkMeta) (i : Nat) (hi : i ≤ full.length) :
    lastMaxtD 0 (full.take i) = prevMaxtAt full i := by
  cases i with
  | zero => simp [lastMaxtD, prevMaxtAt]
  | succ j =>
    have hj : j < full.length := by omega
    have hlen : (full.take (j + 1)).length = j + 1 := by
      rw [List.length_take]
      omega
    have hgl : (full.take (j + 1)).getLast? = some (full[j]) := by
      rw [List.getLast?_eq_getElem?, hlen]
      simp only [Nat.add_sub_cancel, List.getElem?_take]
      rw [if_pos (by omega), List.getElem?_eq_getElem hj]
    simp only [lastMaxtD, hgl, prevMaxtAt]
    rw [List.getD_eq_getElem?_getD, List.getElem?_map, List.getElem?_eq_getElem hj]
    simp

theorem prevMaxtAt_succ (full : List ChunkMeta) (i : Nat) (hi : i < full.length) :
    prevMaxtAt full (i + 1) = (full[i]).MaxTime := by
  simp only [prevMaxtAt]
  rw [List.getD_eq_getElem?_getD, List.getElem?_map, List.getElem?_eq_getElem hi]
  simp

theorem le_foldl_max (ys : List Int) : ∀ a : Int, a ≤ ys.foldl max a := by
  induction ys with
  | nil => intro a; exact le_refl a
  | cons y t ih =>
    intro a
    rw [List.foldl_cons]
    exact le_trans (le_max_left a y) (ih (max a y))

theorem foldl_max_extend (xs ys : List Int) (init : Int) :
    xs.foldl max init ≤ (xs ++ ys).foldl max init := by
  rw [List.foldl_append]
  exact le_foldl_max ys _

theorem runningMaxt_mono (l : List ChunkMeta) {j k : Nat} (h : j ≤ k) :
    runningMaxt l j ≤ runningMaxt l k := by
  unfold runningMaxt
  cases l with
  | nil => simp
  | cons c0 t =>
    rw [List.take_succ_cons, List.take_succ_cons]
    simp only
    have htake : t.take k = t.take j ++ (t.drop j).take (k - j) := by
      rw [← List.take_add]
      congr 1
      omega
    rw [htake, List.map_append]
    exact foldl_max_extend _ _ _

theorem runningMaxt_step (l : List ChunkMeta) (i : Nat) (h : i < l.length) :
    runningMaxt l i = if i = 0 then (l[0]).MaxTime
      else max (runningMaxt l (i - 1)) ((l[i]).MaxTime) := by
  cases i with
  | zero =>
    rw [if_pos rfl]
    unfold runningMaxt
    rw [List.take_succ, List.getElem?_eq_getElem (by omega : 0 < l.length)]
    simp
  | succ j =>
    simp only [Nat.succ_ne_zero, if_false, Nat.add_sub_cancel]
    unfold runningMaxt
    rw [List.take_succ (n := j + 1), List.getElem?_eq_getElem h]
    have hne : l.take (j + 1) ≠ [] := by
      intro hnil
      have hlt : (l.take (j + 1)).length = 0 := by rw [hnil]; rfl
      rw [List.length_take] at hlt
      omega
    obtain ⟨c0, mid, hcm⟩ := List.exists_cons_of_ne_nil hne
    rw [hcm]
    simp only [Option.toList_some, List.cons_append, List.map_append, List.foldl_append]
    simp

end index

namespace index

theorem drop_facts {full rest' : List ChunkMeta} {c : ChunkMeta} {i : Nat}
    (hdrop : full.drop i = c :: rest') :
    i < full.length ∧ full[i]? = some c ∧ full.drop (i + 1) = rest' := by
  have hi : i < full.length := by
    by_contra hc
    rw [List.drop_eq_nil_of_le (by omega)] at hdrop
    exact List.noConfusion hdrop
  refine ⟨hi, ?_, ?_⟩
  · have h0 : (full.drop i)[0]? = full[i + 0]? := List.getElem?_drop full i 0
    rw [hdrop] at h0
    simpa using h0.symm
  · have h1 : full.drop (i + 1) = (full.drop i).drop 1 := by
      rw [List.drop_drop]
    rw [h1, hdrop]
    simp

theorem buildChunkSamplesGo_spec (full : List ChunkMeta) :
    ∀ (rest : List ChunkMeta) (i offset : Nat) (runMax lastSampled : Int),
      full.drop i = rest →
      offset = (encodeChunkMetas 0 (full.take i)).length →
      (i ≠ 0 → runMax = runningMaxt full (i - 1)) →
      (∀ s ∈ buildChunkSamplesGo i offset (prevMaxtAt full i) runMax lastSampled rest,
        i ≤ s.idx ∧ s.idx < full.length ∧
        s.largestMaxt = runningMaxt full s.idx ∧
        s.prevChunkMaxt = prevMaxtAt full s.idx ∧
        s.offset = (encodeChunkMetas 0 (full.take s.idx)).length) ∧
      List.Pairwise (fun a b : chunkSample => a.idx < b.idx)
        (buildChunkSamplesGo i offset (prevMaxtAt full i) runMax lastSampled rest) := by
  intro rest
  induction rest with
  | nil =>
    intro i offset runMax lastSampled _ _ _
    simp [buildChunkSamplesGo]
  | cons c rest' ih =>
    intro i offset runMax lastSampled hdrop hoff hrm
    obtain ⟨hi, hgc, hdrop'⟩ := drop_facts hdrop
    have hceq : full[i] = c := by
      have h2 := List.getElem?_eq_getElem hi
      rw [hgc] at h2
      exact Option.some.inj h2.symm
    have hnewRun : (if i = 0 then c.MaxTime else max runMax c.MaxTime) = runningMaxt full i := by
      rw [runningMaxt_step full i hi]
      by_cases h0 : i = 0
      · subst h0
        rw [if_pos rfl, if_pos rfl, hceq]
      · rw [if_neg h0, if_neg h0, hrm h0, hceq]
    have hpm' : prevMaxtAt full (i + 1) = c.MaxTime := by
      rw [prevMaxtAt_succ full i hi, hceq]
    have hoff2 : offset + (encodeChunkMeta (prevMaxtAt full i) c).length =
        (encodeChunkMetas 0 (full.take (i + 1))).length := by
      rw [List.take_succ, List.getElem?_eq_getElem hi, hceq]
      simp only [Option.toList_some]
      rw [encodeChunkMetas_append, lastMaxtD_take full i (by omega)]
      simp [encodeChunkMetas, hoff]
    have hrm' : i + 1 ≠ 0 → runningMaxt full i = runningMaxt full (i + 1 - 1) := by
      intro _
      simp
    simp only [buildChunkSamplesGo]
    rw [hnewRun]
    cases hts : (i == 0 || rest'.isEmpty ||
        decide (chunkSampleIntervalMs ≤ runningMaxt full i - lastSampled)) with
    | false =>
      simp only [Bool.false_eq_true, if_false]
      rw [← hpm', hoff2]
      obtain ⟨ihall, ihpw⟩ :=
        ih (i + 1) (encodeChunkMetas 0 (full.take (i + 1))).length
          (runningMaxt full i) lastSampled hdrop' rfl (fun h => hrm' h)
      refine ⟨?_, ihpw⟩
      intro s hs
      obtain ⟨ha, hb, hc2, hd, he⟩ := ihall s hs
      exact ⟨by omega, hb, hc2, hd, he⟩
    | true =>
      simp only [if_true]
      rw [← hpm', hoff2]
      obtain ⟨ihall, ihpw⟩ :=
        ih (i + 1) (encodeChunkMetas 0 (full.take (i + 1))).length
          (runningMaxt full i) (runningMaxt full i) hdrop' rfl (fun h => hrm' h)
      constructor
      · intro s hs
        rcases List.mem_cons.1 hs with hs | hs
        · subst hs
          exact ⟨le_refl i, hi, rfl, rfl, hoff⟩
        · obtain ⟨ha, hb, hc2, hd, he⟩ := ihall s hs
          exact ⟨by omega, hb, hc2, hd, he⟩
      · rw [List.pairwise_cons]
        refine ⟨?_, ihpw⟩
        intro t ht
        have := (ihall t ht).1
        simp only
        omega

theorem readChunkMeta_at_offset (chunks : List ChunkMeta) (k : Nat) (hk : k < chunks.length)
    (hwf : ∀ c ∈ chunks, c.MinTime ≤ c.MaxTime ∧ c.Checksum < 2 ^ 32) :
    readChunkMeta
        ((encodeChunkMetas 0 chunks).drop (encodeChunkMetas 0 (chunks.take k)).length)
        (prevMaxtAt chunks k) =
      some (chunks[k],
        encodeChunkMetas ((chunks[k]).MaxTime) (chunks.drop (k + 1))) := by
  have hsplit : chunks = chunks.take k ++ (chunks[k]) :: chunks.drop (k + 1) := by
    conv_lhs => rw [← List.take_append_drop k chunks]
    rw [List.drop_eq_getElem_cons hk]
  have hwfk := hwf (chunks[k]) (List.getElem_mem hk)
  have henc : encodeChunkMetas 0 chunks =
      encodeChunkMetas 0 (chunks.take k) ++
        encodeChunkMetas (prevMaxtAt chunks k) ((chunks[k]) :: chunks.drop (k + 1)) := by
    conv_lhs => rw [hsplit]
    rw [encodeChunkMetas_append, lastMaxtD_take chunks k (by omega)]
  rw [henc, List.drop_left]
  simp only [encodeChunkMetas]
  exact readChunkMeta_encodeChunkMeta _ _ hwfk.1 hwfk.2 _

/-- C5 (amended): for every series whose chunks are sorted by MinTime and
well-formed (MinTime at most MaxTime, 32-bit checksum), every emitted chunk
sample satisfies: idx is a valid chunk index; largestMaxt is the running
maximum MaxTime over chunks up to and including idx; prevChunkMaxt is the
MaxTime of the chunk immediately before idx (0 for idx 0) — the delta base of
chunk idx's encoding, not the running maximum before the sample's run; offset
is the byte offset of chunk idx's encoded metadata, from which readChunkMeta
with base prevChunkMaxt decodes exactly chunk idx; and the samples appear in
non-decreasing largestMaxt order. -/
theorem buildChunkSamples_spec (chunks : List ChunkMeta)
    (_hsorted : List.Chain' (fun a b : ChunkMeta => a.MinTime ≤ b.MinTime) chunks)
    (hwf : ∀ c ∈ chunks, c.MinTime ≤ c.MaxTime ∧ c.Checksum < 2 ^ 32) :
    (∀ s ∈ (buildChunkSamples chunks).chunks,
      s.idx < chunks.length ∧
      s.largestMaxt = runningMaxt chunks s.idx ∧
      s.prevChunkMaxt = prevMaxtAt chunks s.idx ∧
      s.offset = (encodeChunkMetas 0 (chunks.take s.idx)).length ∧
      ∃ cm, chunks[s.idx]? = some cm ∧
        readChunkMeta ((encodeChunkMetas 0 chunks).drop s.offset) s.prevChunkMaxt =
          some (cm, encodeChunkMetas cm.MaxTime (chunks.drop (s.idx + 1)))) ∧
    List.Chain' (fun a b : chunkSample => a.largestMaxt ≤ b.largestMaxt)
      (buildChunkSamples chunks).chunks := by
  obtain ⟨hall, hpw⟩ :=
    buildChunkSamplesGo_spec chunks chunks 0 0 0 0 rfl rfl (fun h => absurd rfl h)
  constructor
  · intro s hs
    obtain ⟨_, hb, hc2, hd, he⟩ := hall s hs
    refine ⟨hb, hc2, hd, he, ⟨chunks[s.idx], List.getElem?_eq_getElem hb, ?_⟩⟩
    rw [he, hd]
    exact readChunkMeta_at_offset chunks s.idx hb hwf
  · have hpw2 : List.Pairwise
        (fun a b : chunkSample => a.largestMaxt ≤ b.largestMaxt)
        (buildChunkSamples chunks).chunks := by
      refine List.Pairwise.imp_of_mem ?_ hpw
      intro a b hma hmb hidx
      rw [(hall a hma).2.2.1, (hall b hmb).2.2.1]
      exact runningMaxt_mono chunks (by omega)
    exact hpw2.chain'

/-- C5 witness: the invariants instantiated on the "first chunk overlapping
all chunks" series of TestDecoder_ChunkSamples (milliseconds, now = 0). -/
theorem buildChunkSamples_spec_witness :
    (∀ c ∈ ([⟨0, 10800000, 0⟩, ⟨1200000, 4800000, 0⟩, ⟨4200000, 7200000, 0⟩,
        ⟨6600000, 9000000, 0⟩] : List ChunkMeta), c.MinTime ≤ c.MaxTime ∧ c.Checksum < 2 ^ 32) ∧
    List.Chain' (fun a b : chunkSample => a.largestMaxt ≤ b.largestMaxt)
      (buildChunkSamples [⟨0, 10800000, 0⟩, ⟨1200000, 4800000, 0⟩, ⟨4200000, 7200000, 0⟩,
        ⟨6600000, 9000000, 0⟩]).chunks :=
  ⟨by decide, (buildChunkSamples_spec
    [⟨0, 10800000, 0⟩, ⟨1200000, 4800000, 0⟩, ⟨4200000, 7200000, 0⟩, ⟨6600000, 9000000, 0⟩]
    (by norm_num [List.chain'_cons]) (by decide)).2⟩

/-- C5 counterexample: on the "first chunk overlapping all chunks" series of
TestDecoder_ChunkSamples (milliseconds, now = 0) the emitted table — matching
the test's expectations — ends with a sample at idx 3 whose prevChunkMaxt is
7200000, the MaxTime of chunk 2, while the largest MaxTime among all chunks
strictly before that sample (running maximum through chunk 2) is 10800000;
the claim's "largest MaxTime strictly before that sample's run" equation
fails. -/
theorem buildChunkSamples_prev_not_runmax :
    ((buildChunkSamples [⟨0, 10800000, 0⟩, ⟨1200000, 4800000, 0⟩, ⟨4200000, 7200000, 0⟩,
        ⟨6600000, 9000000, 0⟩]).chunks.map fun s => (s.largestMaxt, s.idx, s.prevChunkMaxt)) =
      [(10800000, 0, 0), (10800000, 3, 7200000)] ∧
    runningMaxt [⟨0, 10800000, 0⟩, ⟨1200000, 4800000, 0⟩, ⟨4200000, 7200000, 0⟩,
        ⟨6600000, 9000000, 0⟩] 2 = 10800000 ∧
    (7200000 : Int) ≠ 10800000 :=
  ⟨by decide, by decide, by decide⟩

end index

namespace index

theorem mem_mergePostings : ∀ (xs ys : List Nat) (a : Nat),
    a ∈ mergePostings xs ys ↔ a ∈ xs ∨ a ∈ ys := by
  intro xs ys
  induction xs, ys using mergePostings.induct with
  | case1 ys => intro a; simp [mergePostings]
  | case2 x xs => intro a; simp [mergePostings]
  | case3 x xs y ys hxy ih =>
    intro a
    rw [mergePostings, if_pos hxy]
    simp only [List.mem_cons, ih]
    tauto
  | case4 x xs y ys hxy hyx ih =>
    intro a
    rw [mergePostings, if_neg hxy, if_pos hyx]
    simp only [List.mem_cons, ih]
    tauto
  | case5 x xs y ys hxy hyx ih =>
    intro a
    have hxyeq : x = y := by omega
    rw [mergePostings, if_neg hxy, if_neg hyx]
    simp only [List.mem_cons, ih]
    subst hxyeq
    tauto

theorem pairwise_mergePostings : ∀ xs ys : List Nat,
    List.Pairwise (· < ·) xs → List.Pairwise (· < ·) ys →
    List.Pairwise (· < ·) (mergePostings xs ys) := by
  intro xs ys
  induction xs, ys using mergePostings.induct with
  | case1 ys => intro _ h2; simpa [mergePostings]
  | case2 x xs =>
    intro h1 _
    rw [mergePostings]
    exact h1
  | case3 x xs y ys hxy ih =>
    intro h1 h2
    rw [List.pairwise_cons] at h1
    rw [mergePostings, if_pos hxy, List.pairwise_cons]
    constructor
    · intro b hb
      rcases (mem_mergePostings _ _ _).1 hb with hb | hb
      · exact h1.1 b hb
      · rcases List.mem_cons.1 hb with hb | hb
        · omega
        · have := (List.pairwise_cons.1 h2).1 b hb
          omega
    · exact ih h1.2 h2
  | case4 x xs y ys hxy hyx ih =>
    intro h1 h2
    rw [List.pairwise_cons] at h2
    rw [mergePostings, if_neg hxy, if_pos hyx, List.pairwise_cons]
    constructor
    · intro b hb
      rcases (mem_mergePostings _ _ _).1 hb with hb | hb
      · rcases List.mem_cons.1 hb with hb | hb
        · omega
        · have := (List.pairwise_cons.1 h1).1 b hb
          omega
      · exact h2.1 b hb
    · exact ih h1 h2.2
  | case5 x xs y ys hxy hyx ih =>
    intro h1 h2
    rw [List.pairwise_cons] at h1
    rw [List.pairwise_cons] at h2
    rw [mergePostings, if_neg hxy, if_neg hyx, List.pairwise_cons]
    constructor
    · intro b hb
      rcases (mem_mergePostings _ _ _).1 hb with hb | hb
      · exact h1.1 b hb
      · have := h2.1 b hb
        omega
    · exact ih h1.2 h2.2

theorem mem_Postings (p : MemPostings) (name : String) (values : List String) (a : Nat) :
    a ∈ Postings p name values ↔ ∃ v ∈ values, a ∈ p.m name v := by
  induction values with
  | nil => simp [Postings]
  | cons v vs ih =>
    simp only [Postings, List.map_cons, List.foldr_cons]
    rw [mem_mergePostings]
    simp only [Postings] at ih
    rw [ih]
    simp

theorem pairwise_Postings (p : MemPostings) (name : String) (values : List String)
    (h : ∀ v ∈ values, List.Pairwise (· < ·) (p.m name v)) :
    List.Pairwise (· < ·) (Postings p name values) := by
  induction values with
  | nil => simp [Postings]
  | cons v vs ih =>
    simp only [Postings, List.map_cons, List.foldr_cons]
    apply pairwise_mergePostings
    · exact h v (by simp)
    · exact ih fun w hw => h w (by simp [hw])

theorem buildPostings_m (series : List (Nat × List (String × String)))
    (name v : String) :
    (buildPostings series).m name v =
      (series.filter fun s => decide ((name, v) ∈ s.2)).map Prod.fst := by
  suffices h : ∀ p0 : MemPostings,
      (series.foldl (fun p s => p.add s.1 s.2) p0).m name v =
        p0.m name v ++ (series.filter fun s => decide ((name, v) ∈ s.2)).map Prod.fst by
    have := h MemPostings.empty
    simpa [buildPostings, MemPostings.empty] using this
  induction series with
  | nil => intro p0; simp
  | cons s rest ih =>
    intro p0
    rw [List.foldl_cons, ih, List.filter_cons]
    by_cases hmem : (name, v) ∈ s.2
    · rw [if_pos (by simpa using hmem)]
      simp [MemPostings.add, hmem]
    · rw [if_neg (by simpa using hmem)]
      simp [MemPostings.add, hmem]

theorem eq_of_pairwise_lt_mem_ext {l1 l2 : List Nat}
    (h1 : List.Pairwise (· < ·) l1) (h2 : List.Pairwise (· < ·) l2)
    (hm : ∀ a, a ∈ l1 ↔ a ∈ l2) : l1 = l2 := by
  haveI : IsAntisymm Nat (· < ·) := ⟨fun a b hab hba => by omega⟩
  have hn1 : l1.Nodup := h1.imp fun h => Nat.ne_of_lt h
  have hn2 : l2.Nodup := h2.imp fun h => Nat.ne_of_lt h
  exact List.eq_of_perm_of_sorted ((List.perm_ext_iff_of_nodup hn1 hn2).2 hm) h1 h2

/-- C3: for an index built from series added with strictly increasing
references, Postings over one label name and a list of values yields exactly
the references of the series whose label set contains (name = v) for some
supplied v, in strictly ascending order without duplicates (ascending
strictness implies freedom from duplicates); values not present in the index
have empty postings lists and contribute nothing to the union. -/
theorem Postings_spec (series : List (Nat × List (String × String)))
    (href : List.Chain' (· < ·) (series.map Prod.fst))
    (name : String) (values : List String) :
    Postings (buildPostings series) name values =
      (series.filter fun s => values.any fun v => decide ((name, v) ∈ s.2)).map Prod.fst ∧
    List.Chain' (· < ·) (Postings (buildPostings series) name values) := by
  have hpw : List.Pairwise (· < ·) (series.map Prod.fst) := by
    haveI : IsTrans Nat (· < ·) := ⟨fun _ _ _ h1 h2 => by omega⟩
    exact List.chain'_iff_pairwise.1 href
  have hlistpw : ∀ v, List.Pairwise (· < ·) ((buildPostings series).m name v) := by
    intro v
    rw [buildPostings_m]
    exact List.Pairwise.sublist ((List.filter_sublist _).map Prod.fst) hpw
  have hlhs : List.Pairwise (· < ·) (Postings (buildPostings series) name values) :=
    pairwise_Postings _ _ _ fun v _ => hlistpw v
  have hrhs : List.Pairwise (· < ·)
      ((series.filter fun s => values.any fun v => decide ((name, v) ∈ s.2)).map Prod.fst) :=
    List.Pairwise.sublist ((List.filter_sublist _).map Prod.fst) hpw
  have heq : Postings (buildPostings series) name values =
      (series.filter fun s => values.any fun v => decide ((name, v) ∈ s.2)).map Prod.fst := by
    apply eq_of_pairwise_lt_mem_ext hlhs hrhs
    intro a
    rw [mem_Postings]
    constructor
    · rintro ⟨v, hv, ha⟩
      rw [buildPostings_m] at ha
      obtain ⟨s, hs, rfl⟩ := List.mem_map.1 ha
      rw [List.mem_filter] at hs
      refine List.mem_map.2 ⟨s, List.mem_filter.2 ⟨hs.1, ?_⟩, rfl⟩
      rw [List.any_eq_true]
      exact ⟨v, hv, hs.2⟩
    · intro ha
      obtain ⟨s, hs, rfl⟩ := List.mem_map.1 ha
      rw [List.mem_filter, List.any_eq_true] at hs
      obtain ⟨hmem, v, hv, hsv⟩ := hs
      refine ⟨v, hv, ?_⟩
      rw [buildPostings_m]
      exact List.mem_map.2 ⟨s, List.mem_filter.2 ⟨hmem, hsv⟩, rfl⟩
  exact ⟨heq, by
    haveI : IsTrans Nat (· < ·) := ⟨fun _ _ _ h1 h2 => by omega⟩
    exact List.chain'_iff_pairwise.2 hlhs⟩

/-- C3 witness: the spec's concrete scenario — four series sharing a=1 with
distinct b values — instantiated for Postings("a", ["1"]). -/
theorem Postings_spec_witness :
    List.Chain' (· < ·)
      (([(1, [("a", "1"), ("b", "1")]), (2, [("a", "1"), ("b", "2")]),
         (3, [("a", "1"), ("b", "3")]), (4, [("a", "1"), ("b", "4")])] :
        List (Nat × List (String × String))).map Prod.fst) ∧
    Postings (buildPostings [(1, [("a", "1"), ("b", "1")]), (2, [("a", "1"), ("b", "2")]),
        (3, [("a", "1"), ("b", "3")]), (4, [("a", "1"), ("b", "4")])]) "a" ["1"] =
      (([(1, [("a", "1"), ("b", "1")]), (2, [("a", "1"), ("b", "2")]),
         (3, [("a", "1"), ("b", "3")]), (4, [("a", "1"), ("b", "4")])] :
        List (Nat × List (String × String))).filter fun s =>
          (["1"] : List String).any fun v => decide (("a", v) ∈ s.2)).map Prod.fst :=
  ⟨by norm_num [List.chain'_cons],
    (Postings_spec [(1, [("a", "1"), ("b", "1")]), (2, [("a", "1"), ("b", "2")]),
      (3, [("a", "1"), ("b", "3")]), (4, [("a", "1"), ("b", "4")])]
      (by norm_num [List.chain'_cons]) "a" ["1"]).1⟩

end index

namespace index

theorem firstIdxFrom_spec (num : Nat) (q : Nat → Bool) (m : Nat) (hmn : m ≤ num)
    (htrue : m < num → q m = true) (j : Nat) (hjm : j ≤ m)
    (hfalse : ∀ k, j ≤ k → k < m → q k = false) :
    firstIdxFrom num q j = if m < num then m else num := by
  have H : ∀ f j2, m - j2 = f → j2 ≤ m → (∀ k, j2 ≤ k → k < m → q k = false) →
      firstIdxFrom num q j2 = if m < num then m else num := by
    intro f
    induction f with
    | zero =>
      intro j2 hf hj2m _
      have hj2m' : j2 = m := by omega
      subst hj2m'
      rw [firstIdxFrom]
      by_cases hlt : j2 < num
      · rw [dif_pos hlt, htrue hlt, if_pos rfl, if_pos hlt]
      · rw [dif_neg hlt, if_neg hlt]
    | succ f ih =>
      intro j2 hf hj2m hfalse2
      have hjlt : j2 < m := by omega
      have hjnum : j2 < num := by omega
      rw [firstIdxFrom, dif_pos hjnum, hfalse2 j2 (le_refl j2) hjlt]
      simp only [Bool.false_eq_true, if_false]
      exact ih (j2 + 1) (by omega) (by omega) fun k hk1 hk2 => hfalse2 k (by omega) hk2
  exact H (m - j) j rfl hjm hfalse

theorem getD_eq_getElem_of_lt {l : List chunkenc.GoString} {k : Nat} (hk : k < l.length) :
    l.getD k [] = l[k] := by
  rw [List.getD_eq_getElem?_getD, List.getElem?_eq_getElem hk]
  rfl

theorem Symbols_Lookup_spec (s : Symbols) (o : Nat) : s.Lookup o = s.syms[o]? := by
  unfold Symbols.Lookup
  by_cases h : o < s.syms.length
  · rw [if_pos h, List.getElem?_drop]
    congr 1
    simp only [symbolFactor]
    omega
  · rw [if_neg h, List.getElem?_eq_none (by omega)]

theorem Symbols_ReverseLookup_found (s : Symbols)
    (hs : List.Chain' (· < ·) s.syms) (p : Nat) (hp : p < s.syms.length) :
    s.ReverseLookup (s.syms[p]) = some p := by
  haveI : IsTrans chunkenc.GoString (· < ·) := ⟨fun _ _ _ h1 h2 => lt_trans h1 h2⟩
  have hpw := List.chain'_iff_pairwise.1 hs
  have hidx := List.pairwise_iff_getElem.1 hpw
  have hle : ∀ (i j : Nat) (hj : j < s.syms.length) (hij : i ≤ j),
      s.syms[i] ≤ s.syms[j] := by
    intro i j hj hij
    rcases Nat.eq_or_lt_of_le hij with h | h
    · subst h
      exact le_refl _
    · exact le_of_lt (hidx i j (by omega) hj h)
  have hne : s.syms ≠ [] := fun h => by rw [h] at hp; simp at hp
  have hie : s.syms.isEmpty = false := List.isEmpty_eq_false.2 hne
  have hi_eq : firstIdxFrom ((s.syms.length + symbolFactor - 1) / symbolFactor)
      (fun j => decide ((s.syms[p]) < s.syms.getD (symbolFactor * j) [])) 0 =
      if p / symbolFactor + 1 < (s.syms.length + symbolFactor - 1) / symbolFactor
      then p / symbolFactor + 1
      else (s.syms.length + symbolFactor - 1) / symbolFactor := by
    refine firstIdxFrom_spec _ _ (p / symbolFactor + 1) ?_ ?_ 0 (Nat.zero_le _) ?_
    · simp only [symbolFactor]
      omega
    · intro hlt
      simp only [symbolFactor] at hlt
      have h32 : 32 * (p / 32 + 1) < s.syms.length := by omega
      show decide ((s.syms[p]) < s.syms.getD (32 * (p / 32 + 1)) []) = true
      simp only [getD_eq_getElem_of_lt h32]
      exact decide_eq_true (hidx p _ hp h32 (by omega))
    · intro k _ hkm
      simp only [symbolFactor] at hkm
      have hk32 : 32 * k < s.syms.length := by omega
      show decide ((s.syms[p]) < s.syms.getD (32 * k) []) = false
      simp only [getD_eq_getElem_of_lt hk32]
      exact decide_eq_false (not_lt.2 (hle (32 * k) p hp (by omega)))
  have hres : firstIdxFrom s.syms.length
      (fun q => decide ((s.syms[p]) ≤ s.syms.getD q []))
      (symbolFactor * (p / symbolFactor)) = p := by
    have h0 := firstIdxFrom_spec s.syms.length
      (fun q => decide ((s.syms[p]) ≤ s.syms.getD q [])) p (by omega)
      (fun hlt => by
        show decide ((s.syms[p]) ≤ s.syms.getD p []) = true
        simp only [getD_eq_getElem_of_lt hlt]
        exact decide_eq_true (le_refl _))
      (symbolFactor * (p / symbolFactor))
      (by simp only [symbolFactor]; omega)
      (fun k _ hk2 => by
        have hk : k < s.syms.length := by omega
        show decide ((s.syms[p]) ≤ s.syms.getD k []) = false
        simp only [getD_eq_getElem_of_lt hk]
        exact decide_eq_false (not_le.2 (hidx k p hk hp hk2)))
    rw [h0, if_pos hp]
  have hstart : (if 0 < (if p / symbolFactor + 1 <
          (s.syms.length + symbolFactor - 1) / symbolFactor
        then p / symbolFactor + 1 else (s.syms.length + symbolFactor - 1) / symbolFactor)
      then (if p / symbolFactor + 1 < (s.syms.length + symbolFactor - 1) / symbolFactor
        then p / symbolFactor + 1 else (s.syms.length + symbolFactor - 1) / symbolFactor) - 1
      else (if p / symbolFactor + 1 < (s.syms.length + symbolFactor - 1) / symbolFactor
        then p / symbolFactor + 1 else (s.syms.length + symbolFactor - 1) / symbolFactor)) =
      p / symbolFactor := by
    simp only [symbolFactor]
    by_cases hA : p / 32 + 1 < (s.syms.length + 32 - 1) / 32
    · rw [if_pos hA, if_pos (by omega)]
      omega
    · rw [if_neg hA, if_pos (by omega)]
      omega
  unfold Symbols.ReverseLookup
  rw [hie]
  simp only [Bool.false_eq_true, if_false]
  rw [hi_eq, hstart, hres, getD_eq_getElem_of_lt hp]
  simp [hp]

theorem Symbols_ReverseLookup_absent (s : Symbols) (sym : chunkenc.GoString)
    (h : sym ∉ s.syms) : s.ReverseLookup sym = none := by
  unfold Symbols.ReverseLookup
  cases hie : s.syms.isEmpty with
  | true => simp
  | false =>
    simp only [Bool.false_eq_true, if_false]
    have hgen : ∀ res : Nat,
        (if (decide (res < s.syms.length) && (s.syms.getD res [] == sym)) = true
          then some res else none) = none := by
      intro res
      by_cases hlt : res < s.syms.length
      · have hd : s.syms.getD res [] = s.syms[res] := getD_eq_getElem_of_lt hlt
        have hne2 : s.syms[res] ≠ sym := fun heq => h (heq ▸ List.getElem_mem hlt)
        have hcond : (decide (res < s.syms.length) && (s.syms.getD res [] == sym)) = false := by
          rw [hd, beq_eq_false_iff_ne.2 hne2, Bool.and_false]
        rw [hcond]
        simp
      · have hcond : (decide (res < s.syms.length) && (s.syms.getD res [] == sym)) = false := by
          rw [decide_eq_false hlt, Bool.false_and]
        rw [hcond]
        simp
    exact hgen _

/-- C7: over a symbol table holding its n symbols in strictly ascending
order: Lookup(i) returns the i-th symbol for every i < n and fails (none) for
every i ≥ n; ReverseLookup(sym) returns the position of every stored symbol
and fails for every string not stored; Iter enumerates exactly the n stored
symbols in ascending order. -/
theorem Symbols_spec (s : Symbols) (hs : List.Chain' (· < ·) s.syms) :
    (∀ o, s.Lookup o = s.syms[o]?) ∧
    (∀ o, s.syms.length ≤ o → s.Lookup o = none) ∧
    (∀ (p : Nat) (hp : p < s.syms.length), s.ReverseLookup (s.syms[p]) = some p) ∧
    (∀ sym, sym ∉ s.syms → s.ReverseLookup sym = none) ∧
    s.Iter = s.syms ∧ List.Chain' (· < ·) s.Iter := by
  refine ⟨Symbols_Lookup_spec s, ?_, Symbols_ReverseLookup_found s hs,
    Symbols_ReverseLookup_absent s, rfl, hs⟩
  intro o ho
  rw [Symbols_Lookup_spec s, List.getElem?_eq_none ho]

/-- C7 witness: the properties instantiated on a concrete three-symbol table
in ascending bytewise order. -/
theorem Symbols_spec_witness :
    List.Chain' (· < ·) (Symbols.mk [[97], [98], [99]]).syms ∧
    (Symbols.mk [[97], [98], [99]]).ReverseLookup [98] = some 1 ∧
    (Symbols.mk [[97], [98], [99]]).Lookup 5 = none :=
  ⟨by simp only [List.chain'_cons, List.chain'_singleton]; exact ⟨by decide, by decide, trivial⟩,
    (Symbols_spec (Symbols.mk [[97], [98], [99]])
      (by simp only [List.chain'_cons, List.chain'_singleton]
          exact ⟨by decide, by decide, trivial⟩)).2.2.1 1 (by decide),
    (Symbols_spec (Symbols.mk [[97], [98], [99]])
      (by simp only [List.chain'_cons, List.chain'_singleton]
          exact ⟨by decide, by decide, trivial⟩)).2.1 5 (by decide)⟩

end index

namespace index

set_option maxRecDepth 200000 in
/-- C6: opening fails with an error on any buffer that is too small to be an
index and on any buffer whose leading magic bytes are wrong — covering a file
whose magic header was overwritten with zero bytes, a file holding the ASCII
bytes of "corrupted contents", and the 0x81-filled buffer of
TestReaderWithInvalidBuffer — and an unmodified file produced by the writer
(the empty index of TestIndexRW_Create_Open) opens without error. -/
theorem newReader_spec :
    (∀ b : List Nat, b.length < HeaderLen + tocLen + 4 → ∃ e, newReader b = .error e) ∧
    (∀ b : List Nat, b.take 4 ≠ magicBytes → ∃ e, newReader b = .error e) ∧
    newReader [0x81, 0x81, 0x81, 0x81, 0x81, 0x81] = .error "invalid index: file too small" ∧
    newReader [99, 111, 114, 114, 117, 112, 116, 101, 100, 32, 99, 111, 110, 116,
      101, 110, 116, 115] = .error "invalid index: file too small" ∧
    newReader (((writeIndex [] [] [] []).set 0 0).set 1 0) = .error "invalid magic number" ∧
    newReader (writeIndex [] [] [] []) = .ok ⟨[], [], [], []⟩ := by
  refine ⟨?_, ?_, rfl, rfl, ?_, ?_⟩
  · intro b hsmall
    unfold newReader
    rw [if_pos hsmall]
    exact ⟨_, rfl⟩
  · intro b hmagic
    unfold newReader
    by_cases hsmall : b.length < HeaderLen + tocLen + 4
    · rw [if_pos hsmall]
      exact ⟨_, rfl⟩
    · rw [if_neg hsmall, if_pos hmagic]
      exact ⟨_, rfl⟩
  · rfl
  · rfl

/-- C6 witness: the failure path instantiated on a concrete 70-byte zero
buffer, whose leading bytes are not the index magic. -/
theorem newReader_spec_witness :
    (List.replicate 70 0).take 4 ≠ magicBytes ∧
    ∃ e, newReader (List.replicate 70 0) = .error e :=
  ⟨by decide, newReader_spec.2.1 (List.replicate 70 0) (by decide)⟩

end index

namespace dataset

/-- C9 (amended): WalkPredicate terminates without panicking on every
predicate built from the ten enumerated constructors (nil values and nil
children included), and its sequence of fn calls is exactly the traversal the
documentation describes — p first and, when fn(p) returns true, each non-nil
child recursively followed by one call fn(nil); a panic can occur only when
the walk reaches a non-nil value outside the closed enumeration with fn
directing it there. -/
theorem walk_eq_specWalk {C V S σ : Type} :
    ∀ (p : GoPredicate C V S) (fn : σ → GoPredicate C V S → Bool × σ) (s : σ),
      predInEnum p = true → WalkPredicate p fn s = some (specWalkVisits p fn s) := by
  intro p
  induction p with
  | nil => intro fn s _; rfl
  | AndPredicate l r ihl ihr =>
    intro fn s h
    simp only [predInEnum, Bool.and_eq_true] at h
    simp only [WalkPredicate, specWalkVisits, ihl fn _ h.1, ihr fn _ h.2]
    cases (fn s (GoPredicate.AndPredicate l r)).1 <;> rfl
  | OrPredicate l r ihl ihr =>
    intro fn s h
    simp only [predInEnum, Bool.and_eq_true] at h
    simp only [WalkPredicate, specWalkVisits, ihl fn _ h.1, ihr fn _ h.2]
    cases (fn s (GoPredicate.OrPredicate l r)).1 <;> rfl
  | NotPredicate inner ihi =>
    intro fn s h
    simp only [predInEnum] at h
    simp only [WalkPredicate, specWalkVisits, ihi fn _ h]
    cases (fn s (GoPredicate.NotPredicate inner)).1 <;> rfl
  | TruePredicate =>
    intro fn s _
    simp only [WalkPredicate, specWalkVisits]
    cases (fn s GoPredicate.TruePredicate).1 <;> rfl
  | FalsePredicate =>
    intro fn s _
    simp only [WalkPredicate, specWalkVisits]
    cases (fn s GoPredicate.FalsePredicate).1 <;> rfl
  | EqualPredicate col v =>
    intro fn s _
    simp only [WalkPredicate, specWalkVisits]
    cases (fn s (GoPredicate.EqualPredicate col v)).1 <;> rfl
  | InPredicate col vs =>
    intro fn s _
    simp only [WalkPredicate, specWalkVisits]
    cases (fn s (GoPredicate.InPredicate col vs)).1 <;> rfl
  | GreaterThanPredicate col v =>
    intro fn s _
    simp only [WalkPredicate, specWalkVisits]
    cases (fn s (GoPredicate.GreaterThanPredicate col v)).1 <;> rfl
  | LessThanPredicate col v =>
    intro fn s _
    simp only [WalkPredicate, specWalkVisits]
    cases (fn s (GoPredicate.LessThanPredicate col v)).1 <;> rfl
  | FuncPredicate col keep =>
    intro fn s _
    simp only [WalkPredicate, specWalkVisits]
    cases (fn s (GoPredicate.FuncPredicate col keep)).1 <;> rfl
  | unsupported => intro fn s h; simp [predInEnum] at h

/-- C9 witness: the traversal instantiated on And(True, nil) with an
always-true fn. -/
theorem walk_eq_specWalk_witness :
    predInEnum (C := Unit) (V := Unit) (S := Unit)
        (.AndPredicate .TruePredicate .nil) = true ∧
    WalkPredicate (σ := Unit)
        (GoPredicate.AndPredicate (C := Unit) (V := Unit) (S := Unit) .TruePredicate .nil)
        (fun st _ => (true, st)) () =
      some (specWalkVisits (.AndPredicate .TruePredicate .nil) (fun st _ => (true, st)) ()) :=
  ⟨rfl, walk_eq_specWalk _ _ _ rfl⟩

/-- C9 counterexample: WalkPredicate applied to a non-nil value outside the
closed enumeration does not panic when fn returns false on it — the source
returns before reaching the switch whose default panics — refuting "panics
exactly when invoked on a non-nil predicate value outside that closed
enumeration". -/
theorem walkPredicate_unsupported_no_panic :
    WalkPredicate (C := Unit) (V := Unit) (S := Unit) (σ := Unit)
        .unsupported (fun st _ => (false, st)) () = some ((), [.unsupported]) := rfl

end dataset
